import Mathlib

/-!
# Verification of the `openrpc-gen` IR, dependency graph and fix pipeline

This file gives a shallow embedding of the core of `openrpc-gen`:

* the IR data model (`src/parse/mod.rs`),
* the type-dependency graph (`src/deps.rs`),
* the fix pipeline (`src/fix.rs`),

and proves properties of the embedded definitions.

Rust `BTreeMap<Path, V>` values are embedded as association lists
`List (String × V)` kept in ascending key order; `Path` (`Rc<str>`) is
embedded as `String`.  Loops whose termination is dynamic in the source
(the stray-type worklist, the word-aligned prefix/suffix scans, the
recursive keyword search) are embedded with an explicit fuel argument
that is a proven upper bound on the number of iterations the source
loop performs, so the embedded function computes the same result as
the source loop on every terminating run.
-/

set_option maxHeartbeats 1000000

namespace OpenRpcGen

/-- A path to a resource defined in an OpenRPC document (`Path = Rc<str>`). -/
abbrev Path := String

/-- Ordered-map operations on association lists, mirroring `BTreeMap`. -/
def btFind? {α : Type} (l : List (Path × α)) (k : Path) : Option α :=
  (l.find? (fun kv => kv.1 == k)).map (·.2)

/-- `BTreeMap::remove` (an association list holds each key at most once). -/
def btErase {α : Type} (l : List (Path × α)) (k : Path) : List (Path × α) :=
  l.filter (fun kv => kv.1 != k)

/-- `BTreeMap::contains_key`. -/
def btContains {α : Type} (l : List (Path × α)) (k : Path) : Bool :=
  l.any (fun kv => kv.1 == k)

/-- Lexicographic order on character lists by code point. -/
def chListLt : List Char → List Char → Bool
  | [], [] => false
  | [], _ :: _ => true
  | _ :: _, [] => false
  | a :: as, b :: bs =>
    if a.toNat < b.toNat then true
    else if b.toNat < a.toNat then false
    else chListLt as bs

/-- The `BTreeMap` key order: lexicographic by code point, which coincides
with Rust's byte-wise UTF-8 string order. -/
def strLt (a b : String) : Bool := chListLt a.data b.data

/-- Sorted insertion of a fresh key. -/
def btInsertNew {α : Type} (k : Path) (v : α) : List (Path × α) → List (Path × α)
  | [] => [(k, v)]
  | (k', v') :: t => if strLt k k' then (k, v) :: (k', v') :: t else (k', v') :: btInsertNew k v t

/-- `BTreeMap::insert`: replace the value at `k` if present, else insert sorted. -/
def btInsert {α : Type} (l : List (Path × α)) (k : Path) (v : α) : List (Path × α) :=
  if btContains l k then l.map (fun kv => if kv.1 == k then (k, v) else kv)
  else btInsertNew k v l

/-- `BTreeMap::append`: move every entry of `other` into `l`, overwriting duplicates. -/
def btAppend {α : Type} (l other : List (Path × α)) : List (Path × α) :=
  other.foldl (fun acc kv => btInsert acc kv.1 kv.2) l

/-- `BTreeMap::values`. -/
def btValues {α : Type} (l : List (Path × α)) : List α :=
  l.map (·.2)

/-- The source of a type (`TypeSource`). -/
inductive TypeSource where
  | Method
  | Declared
  | Anonymous
deriving DecidableEq, Repr

/-- A reference to an existing type (`TypeRef`). -/
inductive TypeRef where
  | Ref (path : Path)
  | ExternalRef (name : String)
  | Boolean
  | String
  | Keyword (value : String)
  | Integer (formatAsHex : Bool)
  | Number
  | Array (inner : TypeRef)
  | Null
deriving DecidableEq, Repr

/-- `TypeRef::inner_path`: the path of the referenced type, looking through arrays. -/
def TypeRef.innerPath : TypeRef → Option Path
  | .Array inner => inner.innerPath
  | .Ref path => some path
  | _ => none

/-- A field of a struct (`StructField`). -/
structure StructField where
  path : Path
  name : String
  documentation : Option String
  required : Bool
  flatten : Bool
  ty : TypeRef
  nameInJson : String
deriving DecidableEq, Repr

/-- A struct definition (`StructDef`). -/
structure StructDef where
  tags : List (String × String)
  fields : List (Path × StructField)
deriving DecidableEq, Repr

/-- How an enum is represented in JSON (`EnumTag`). -/
inductive EnumTag where
  | Untagged
  | Tagged (name : String)
  | Normal
deriving DecidableEq, Repr

/-- A variant of an enum (`EnumVariant`). -/
structure EnumVariant where
  path : Path
  name : String
  nameInJson : Option String
  documentation : Option String
  ty : Option TypeRef
deriving DecidableEq, Repr

/-- An enum definition (`EnumDef`). -/
structure EnumDef where
  variants : List (Path × EnumVariant)
  tag : EnumTag
deriving DecidableEq, Repr

/-- An alias definition (`AliasDef`). -/
structure AliasDef where
  ty : TypeRef
deriving DecidableEq, Repr

/-- The kind of a type (`TypeKind`). -/
inductive TypeKind where
  | Struct (s : StructDef)
  | Enum (e : EnumDef)
  | Alias (a : AliasDef)
deriving DecidableEq, Repr

/-- A type definition (`TypeDef`). -/
structure TypeDef where
  path : Path
  name : String
  documentation : Option String
  source : TypeSource
  kind : TypeKind
deriving DecidableEq, Repr

/-- The result of an OpenRPC method (`MethodResult`). -/
structure MethodResult where
  ty : TypeRef
  documentation : Option String
deriving DecidableEq, Repr

/-- A parameter of an OpenRPC method (`MethodParameter`). -/
structure MethodParameter where
  name : String
  documentation : Option String
  ty : TypeRef
  required : Bool
deriving DecidableEq, Repr

/-- An OpenRPC method (`Method`). -/
structure Method where
  name : String
  documentation : Option String
  params : List MethodParameter
  result : Option MethodResult
deriving DecidableEq, Repr

/-- The output file (`File`): methods plus the path-keyed type arena. -/
structure File where
  methods : List Method
  types : List (Path × TypeDef)
deriving DecidableEq, Repr

/-- `file.types.get(path)`. -/
def findType (f : File) (p : Path) : Option TypeDef :=
  btFind? f.types p

/-!
## Generic worklist closure

`remove_stray_types` (fix.rs) and petgraph's `has_path_connecting`
(used by deps.rs) both compute the set of nodes reachable from a set
of roots by a depth-first worklist over a successor table.  We embed
that loop once, generically, over an adjacency list `entries`.  The
`fuel` argument is an explicit iteration bound: `closurePhi` strictly
decreases at every iteration of the source loop, so running with fuel
`closurePhi + 1` computes exactly what the unbounded source loop does.
-/

/-- Total number of successors listed in an adjacency list. -/
def sumSuccs (entries : List (Path × List Path)) : Nat :=
  (entries.map (fun e => e.2.length)).sum

/-- Entries whose key has not been visited yet. -/
def notVisited (ns : List Path) (e : Path × List Path) : Bool :=
  decide (e.1 ∉ ns)

/-- Upper bound on the number of remaining worklist iterations. -/
def closurePhi (entries : List (Path × List Path)) (stack ns : List Path) : Nat :=
  stack.length + sumSuccs (entries.filter (notVisited ns))

/-- The worklist loop: pop a node, record it as visited, push its successors.
A node with no entry in the table is recorded but not expanded. -/
def closureLoop (entries : List (Path × List Path)) : Nat → List Path → List Path → List Path
  | 0, _, ns => ns
  | _ + 1, [], ns => ns
  | fuel + 1, p :: rest, ns =>
    if p ∈ ns then closureLoop entries fuel rest ns
    else
      match btFind? entries p with
      | none => closureLoop entries fuel rest (p :: ns)
      | some succs => closureLoop entries fuel (succs.reverse ++ rest) (p :: ns)

/-- Run the worklist to completion from the given initial stack. -/
def closureRun (entries : List (Path × List Path)) (stack : List Path) : List Path :=
  closureLoop entries (closurePhi entries stack [] + 1) stack []

/-- One reachability step through the adjacency list. -/
def entriesStep (entries : List (Path × List Path)) (a b : Path) : Prop :=
  ∃ l, btFind? entries a = some l ∧ b ∈ l

/-- Declarative reachability through the adjacency list. -/
def Reaches (entries : List (Path × List Path)) (a b : Path) : Prop :=
  Relation.ReflTransGen (entriesStep entries) a b

theorem sumSuccs_mono {entries : List (Path × List Path)} {ns ns' : List Path}
    (h : ∀ p, p ∈ ns → p ∈ ns') :
    sumSuccs (entries.filter (notVisited ns')) ≤ sumSuccs (entries.filter (notVisited ns)) := by
  induction entries with
  | nil => simp [sumSuccs]
  | cons e t ih =>
    simp only [sumSuccs, List.filter_cons] at ih ⊢
    by_cases h' : notVisited ns' e
    · have hn : notVisited ns e := by
        simp only [notVisited, decide_eq_true_eq] at h' ⊢
        exact fun hm => h' (h _ hm)
      simp only [h', hn, if_true, List.map_cons, List.sum_cons]
      omega
    · simp only [Bool.not_eq_true] at h'
      simp only [h', Bool.false_eq_true, if_false]
      by_cases hn : notVisited ns e
      · simp only [hn, if_true, List.map_cons, List.sum_cons]
        omega
      · simp only [Bool.not_eq_true] at hn
        simp only [hn, Bool.false_eq_true, if_false]
        exact ih

theorem sumSuccs_lookup {entries : List (Path × List Path)} {p : Path} {succs ns : List Path}
    (hl : btFind? entries p = some succs) (hp : p ∉ ns) :
    succs.length + sumSuccs (entries.filter (notVisited (p :: ns))) ≤
      sumSuccs (entries.filter (notVisited ns)) := by
  induction entries with
  | nil => simp [btFind?] at hl
  | cons e t ih =>
    by_cases he : e.1 = p
    · have hsucc : e.2 = succs := by
        have : (e.1 == p) = true := by simp [he]
        simp only [btFind?, List.find?_cons, this] at hl
        simpa using hl
      have h1 : notVisited ns e = true := by
        simp [notVisited, he, hp]
      have h2 : notVisited (p :: ns) e = false := by
        simp [notVisited, he]
      simp only [List.filter_cons, h1, h2, if_true, Bool.false_eq_true, if_false]
      simp only [sumSuccs, List.map_cons, List.sum_cons, hsucc]
      have hmono := @sumSuccs_mono t ns (p :: ns)
        (fun q hq => List.mem_cons_of_mem _ hq)
      simp only [sumSuccs] at hmono
      omega
    · have hl' : btFind? t p = some succs := by
        have : (e.1 == p) = false := by simp [he]
        simpa [btFind?, List.find?_cons, this] using hl
      have hsame : notVisited (p :: ns) e = notVisited ns e := by
        simp [notVisited, he]
      have hrec := ih hl'
      simp only [sumSuccs] at hrec ⊢
      simp only [List.filter_cons, hsame]
      by_cases hn : notVisited ns e
      · simp only [hn, if_true, List.map_cons, List.sum_cons]
        omega
      · simp only [Bool.not_eq_true] at hn
        simp only [hn, Bool.false_eq_true, if_false]
        omega

theorem closurePhi_visited {entries : List (Path × List Path)} {p : Path} {rest ns : List Path} :
    closurePhi entries rest ns < closurePhi entries (p :: rest) ns := by
  simp [closurePhi, List.length_cons]

theorem closurePhi_none {entries : List (Path × List Path)} {p : Path} {rest ns : List Path} :
    closurePhi entries rest (p :: ns) < closurePhi entries (p :: rest) ns := by
  have := @sumSuccs_mono entries ns (p :: ns)
    (fun q hq => List.mem_cons_of_mem _ hq)
  simp only [closurePhi, List.length_cons]
  omega

theorem closurePhi_found {entries : List (Path × List Path)} {p : Path} {succs rest ns : List Path}
    (hl : btFind? entries p = some succs) (hp : p ∉ ns) :
    closurePhi entries (succs.reverse ++ rest) (p :: ns) < closurePhi entries (p :: rest) ns := by
  have := sumSuccs_lookup hl hp
  simp only [closurePhi, List.length_append, List.length_reverse, List.length_cons]
  omega

/-- Visited nodes are never dropped. -/
theorem closureLoop_ns_subset {entries : List (Path × List Path)} :
    ∀ fuel stack ns q, q ∈ ns → q ∈ closureLoop entries fuel stack ns := by
  intro fuel
  induction fuel with
  | zero => intro stack ns q hq; simpa [closureLoop] using hq
  | succ n ih =>
    intro stack ns q hq
    match stack with
    | [] => simpa [closureLoop] using hq
    | p :: rest =>
      simp only [closureLoop]
      split
      · exact ih _ _ _ hq
      · cases hbf : btFind? entries p with
        | none => exact ih _ _ _ (List.mem_cons_of_mem _ hq)
        | some succs => exact ih _ _ _ (List.mem_cons_of_mem _ hq)

/-- With sufficient fuel, every stacked node ends up visited. -/
theorem closureLoop_stack_subset {entries : List (Path × List Path)} :
    ∀ fuel stack ns, closurePhi entries stack ns < fuel →
      ∀ q ∈ stack, q ∈ closureLoop entries fuel stack ns := by
  intro fuel
  induction fuel with
  | zero => intro stack ns h; omega
  | succ n ih =>
    intro stack ns hΦ q hq
    match stack with
    | [] => cases hq
    | p :: rest =>
      have hΦv : closurePhi entries rest ns < n := by
        have := @closurePhi_visited entries p rest ns
        omega
      simp only [closureLoop]
      split
      · rename_i hmem
        rcases List.mem_cons.mp hq with rfl | hq'
        · exact closureLoop_ns_subset _ _ _ _ hmem
        · exact ih _ _ hΦv _ hq'
      · rename_i hmem
        cases hbf : btFind? entries p with
        | none =>
          have hΦ' : closurePhi entries rest (p :: ns) < n := by
            have := @closurePhi_none entries p rest ns
            omega
          rcases List.mem_cons.mp hq with rfl | hq'
          · exact closureLoop_ns_subset _ _ _ _ (List.mem_cons_self _ _)
          · exact ih _ _ hΦ' _ hq'
        | some succs =>
          have hΦ' : closurePhi entries (succs.reverse ++ rest) (p :: ns) < n := by
            have := @closurePhi_found entries p succs rest ns hbf hmem
            omega
          rcases List.mem_cons.mp hq with rfl | hq'
          · exact closureLoop_ns_subset _ _ _ _ (List.mem_cons_self _ _)
          · exact ih _ _ hΦ' _ (List.mem_append_right _ hq')

/-- The invariant: successors of visited nodes are visited or stacked. -/
def ClosureInv (entries : List (Path × List Path)) (stack ns : List Path) : Prop :=
  ∀ p ∈ ns, ∀ succs, btFind? entries p = some succs → ∀ q ∈ succs, q ∈ ns ∨ q ∈ stack

/-- With sufficient fuel the result is closed under successor steps. -/
theorem closureLoop_closed {entries : List (Path × List Path)} :
    ∀ fuel stack ns, closurePhi entries stack ns < fuel → ClosureInv entries stack ns →
      ∀ a ∈ closureLoop entries fuel stack ns, ∀ succs, btFind? entries a = some succs →
        ∀ b ∈ succs, b ∈ closureLoop entries fuel stack ns := by
  intro fuel
  induction fuel with
  | zero => intro stack ns h; omega
  | succ n ih =>
    intro stack ns hΦ hInv a ha succs hbf b hb
    match stack with
    | [] =>
      simp only [closureLoop] at ha ⊢
      rcases hInv a ha succs hbf b hb with h | h
      · exact h
      · cases h
    | p :: rest =>
      have hΦv : closurePhi entries rest ns < n := by
        have := @closurePhi_visited entries p rest ns
        omega
      simp only [closureLoop] at ha ⊢
      split at ha <;> rename_i hmem
      · have hInv' : ClosureInv entries rest ns := by
          intro p' hp' s hs q hq
          rcases hInv p' hp' s hs q hq with h | h
          · exact Or.inl h
          · rcases List.mem_cons.mp h with rfl | h'
            · exact Or.inl hmem
            · exact Or.inr h'
        simp only [if_pos hmem]
        exact ih _ _ hΦv hInv' a ha succs hbf b hb
      · simp only [if_neg hmem]
        cases hbfp : btFind? entries p with
        | none =>
          rw [hbfp] at ha
          have hΦ' : closurePhi entries rest (p :: ns) < n := by
            have := @closurePhi_none entries p rest ns
            omega
          have hInv' : ClosureInv entries rest (p :: ns) := by
            intro p' hp' s hs q hq
            rcases List.mem_cons.mp hp' with rfl | hp''
            · rw [hbfp] at hs; cases hs
            · rcases hInv p' hp'' s hs q hq with h | h
              · exact Or.inl (List.mem_cons_of_mem _ h)
              · rcases List.mem_cons.mp h with rfl | h'
                · exact Or.inl (List.mem_cons_self _ _)
                · exact Or.inr h'
          exact ih _ _ hΦ' hInv' a ha succs hbf b hb
        | some psuccs =>
          rw [hbfp] at ha
          have hΦ' : closurePhi entries (psuccs.reverse ++ rest) (p :: ns) < n := by
            have := @closurePhi_found entries p psuccs rest ns hbfp hmem
            omega
          have hInv' : ClosureInv entries (psuccs.reverse ++ rest) (p :: ns) := by
            intro p' hp' s hs q hq
            rcases List.mem_cons.mp hp' with rfl | hp''
            · rw [hbfp] at hs
              cases hs
              exact Or.inr (List.mem_append_left _ (List.mem_reverse.mpr hq))
            · rcases hInv p' hp'' s hs q hq with h | h
              · exact Or.inl (List.mem_cons_of_mem _ h)
              · rcases List.mem_cons.mp h with rfl | h'
                · exact Or.inl (List.mem_cons_self _ _)
                · exact Or.inr (List.mem_append_right _ h')
          exact ih _ _ hΦ' hInv' a ha succs hbf b hb

/-- Everything the loop visits is reachable from the stack or was already visited. -/
theorem closureLoop_sound {entries : List (Path × List Path)} :
    ∀ fuel stack ns, ∀ q ∈ closureLoop entries fuel stack ns,
      q ∈ ns ∨ ∃ r ∈ stack, Reaches entries r q := by
  intro fuel
  induction fuel with
  | zero => intro stack ns q hq; exact Or.inl (by simpa [closureLoop] using hq)
  | succ n ih =>
    intro stack ns q hq
    match stack with
    | [] => exact Or.inl (by simpa [closureLoop] using hq)
    | p :: rest =>
      simp only [closureLoop] at hq
      split at hq <;> rename_i hmem
      · rcases ih _ _ q hq with h | ⟨r, hr, hre⟩
        · exact Or.inl h
        · exact Or.inr ⟨r, List.mem_cons_of_mem _ hr, hre⟩
      · cases hbfp : btFind? entries p with
        | none =>
          rw [hbfp] at hq
          rcases ih _ _ q hq with h | ⟨r, hr, hre⟩
          · rcases List.mem_cons.mp h with rfl | h'
            · exact Or.inr ⟨q, List.mem_cons_self _ _, Relation.ReflTransGen.refl⟩
            · exact Or.inl h'
          · exact Or.inr ⟨r, List.mem_cons_of_mem _ hr, hre⟩
        | some succs =>
          rw [hbfp] at hq
          rcases ih _ _ q hq with h | ⟨r, hr, hre⟩
          · rcases List.mem_cons.mp h with rfl | h'
            · exact Or.inr ⟨q, List.mem_cons_self _ _, Relation.ReflTransGen.refl⟩
            · exact Or.inl h'
          · rcases List.mem_append.mp hr with hr' | hr'
            · refine Or.inr ⟨p, List.mem_cons_self _ _, ?_⟩
              exact Relation.ReflTransGen.trans
                (Relation.ReflTransGen.single ⟨succs, hbfp, List.mem_reverse.mp hr'⟩) hre
            · exact Or.inr ⟨r, List.mem_cons_of_mem _ hr', hre⟩

/-- Exactness of the worklist closure: it computes precisely the set of nodes
reachable from the initial stack. -/
theorem closureRun_spec (entries : List (Path × List Path)) (stack : List Path) (q : Path) :
    q ∈ closureRun entries stack ↔ ∃ r ∈ stack, Reaches entries r q := by
  constructor
  · intro hq
    rcases closureLoop_sound _ _ _ q hq with h | h
    · cases h
    · exact h
  · rintro ⟨r, hr, hre⟩
    have hΦ : closurePhi entries stack [] < closurePhi entries stack [] + 1 := Nat.lt_succ_self _
    induction hre with
    | refl => exact closureLoop_stack_subset _ _ _ hΦ r hr
    | tail _ hstep ih =>
      rename_i m q' _
      rcases hstep with ⟨l, hbf, hql⟩
      have hInv : ClosureInv entries stack [] := by
        intro p hp; cases hp
      exact closureLoop_closed _ _ _ hΦ hInv m ih l hbf q' hql

/-!
## `remove_stray_types` (fix.rs)
-/

/-- The references a type's kind contributes to the stray-type traversal
(`take_ref_into_account` applied to struct fields, enum variant payloads
and alias targets). -/
def succsOfKind : TypeKind → List Path
  | .Struct s => (btValues s.fields).filterMap (fun fld => fld.ty.innerPath)
  | .Enum e => (btValues e.variants).filterMap (fun v => v.ty.bind TypeRef.innerPath)
  | .Alias a => a.ty.innerPath.toList

/-- The roots of the stray-type traversal: every type whose source is `Method`,
the resolved inner path of every method result and of every method parameter. -/
def strayRoots (f : File) : List Path :=
  ((btValues f.types).filter (fun ty => decide (ty.source = TypeSource.Method))).map (·.path)
    ++ f.methods.filterMap (fun m => m.result.bind (fun r => r.ty.innerPath))
    ++ (f.methods.map (fun m => m.params.filterMap (fun p => p.ty.innerPath))).flatten

/-- The successor table of the stray-type traversal. -/
def strayEntries (f : File) : List (Path × List Path) :=
  f.types.map (fun kv => (kv.1, succsOfKind kv.2.kind))

/-- `remove_stray_types`: visit the graph from the method roots, then retain
only the types whose path was visited.  (The Rust worklist is a `Vec` popped
from the back; the initial stack and pushes are reversed accordingly.) -/
def removeStrayTypes (f : File) : File :=
  let notStray := closureRun (strayEntries f) (strayRoots f).reverse
  { f with types := f.types.filter (fun kv => decide (kv.2.path ∈ notStray)) }

/-- One step of the pass-10 traversal, stated on the file directly. -/
def FileStep (f : File) (a b : Path) : Prop :=
  ∃ ty, findType f a = some ty ∧ b ∈ succsOfKind ty.kind

/-- A path is reachable by the pass-10 traversal from a method root. -/
def FileReachable (f : File) (p : Path) : Prop :=
  ∃ r ∈ strayRoots f, Relation.ReflTransGen (FileStep f) r p

/-- Keys of the inner maps agree with the `path` field of their values. -/
def KindKeyed : TypeKind → Prop
  | .Struct s => ∀ kv ∈ s.fields, kv.2.path = kv.1
  | .Enum e => ∀ kv ∈ e.variants, kv.2.path = kv.1
  | .Alias _ => True

instance instDecidableKindKeyed : (k : TypeKind) → Decidable (KindKeyed k)
  | .Struct s => List.decidableBAll _ s.fields
  | .Enum e => List.decidableBAll _ e.variants
  | .Alias _ => .isTrue trivial

/-- The path-keying invariant of a `File`: every type is stored under its own
path, and likewise every struct field and enum variant. -/
def WellKeyed (f : File) : Prop :=
  ∀ kv ∈ f.types, kv.2.path = kv.1 ∧ KindKeyed kv.2.kind

instance instDecidableWellKeyed (f : File) : Decidable (WellKeyed f) :=
  List.decidableBAll _ f.types

theorem btFind?_map_entries {α β : Type} (l : List (Path × α)) (g : Path × α → β) (k : Path) :
    btFind? (l.map (fun kv => (kv.1, g kv))) k = (l.find? (fun kv => kv.1 == k)).map g := by
  induction l with
  | nil => simp [btFind?]
  | cons kv t ih =>
    by_cases h : kv.1 == k
    · simp [btFind?, List.find?_cons, h]
    · have hf : (kv.1 == k) = false := by simpa using h
      simp only [btFind?, List.map_cons, List.find?_cons, hf, Bool.false_eq_true, if_false] at ih ⊢
      exact ih

theorem btFind?_filter {α : Type} (l : List (Path × α)) (pred : Path × α → Bool)
    (q : Path → Bool) (h : ∀ kv ∈ l, pred kv = q kv.1) (k : Path) :
    btFind? (l.filter pred) k = if q k then btFind? l k else none := by
  induction l with
  | nil => cases hq : q k <;> simp [btFind?, hq]
  | cons kv t ih =>
    have hhead := h kv (List.mem_cons_self _ _)
    have htail : ∀ kv' ∈ t, pred kv' = q kv'.1 := fun kv' hm => h kv' (List.mem_cons_of_mem _ hm)
    by_cases hk : kv.1 == k
    · have hk' : kv.1 = k := by simpa using hk
      by_cases hq : q k
      · have hpt : pred kv = true := by rw [hhead, hk', hq]
        simp only [List.filter_cons, hpt, if_true, hq, btFind?, List.find?_cons, hk]
      · have hq' : q k = false := by simpa using hq
        have : pred kv = false := by rw [hhead, hk', hq']
        simp only [List.filter_cons, this, Bool.false_eq_true, if_false, hq']
        rw [ih htail, hq']
        simp
    · have hkf : (kv.1 == k) = false := by simpa using hk
      by_cases hpred : pred kv
      · simp only [List.filter_cons, hpred, if_true]
        simp only [btFind?, List.find?_cons, hkf, Bool.false_eq_true, if_false]
        have := ih htail
        simp only [btFind?] at this
        rw [this]
      · have : pred kv = false := by simpa using hpred
        simp only [List.filter_cons, this, Bool.false_eq_true, if_false]
        rw [ih htail]
        simp only [btFind?, List.find?_cons, hkf, Bool.false_eq_true, if_false]

theorem strayEntries_find (f : File) (p : Path) :
    btFind? (strayEntries f) p = (findType f p).map (fun ty => succsOfKind ty.kind) := by
  have h := btFind?_map_entries f.types (fun kv => succsOfKind kv.2.kind) p
  simp only [strayEntries] at *
  rw [h, findType, btFind?]
  cases f.types.find? (fun kv => kv.1 == p) <;> simp

theorem entriesStep_iff_fileStep (f : File) (a b : Path) :
    entriesStep (strayEntries f) a b ↔ FileStep f a b := by
  constructor
  · rintro ⟨l, hl, hb⟩
    rw [strayEntries_find] at hl
    cases hft : findType f a with
    | none => rw [hft] at hl; cases hl
    | some ty =>
      rw [hft] at hl
      simp only [Option.map_some'] at hl
      cases hl
      exact ⟨ty, hft, hb⟩
  · rintro ⟨ty, hft, hb⟩
    exact ⟨succsOfKind ty.kind, by rw [strayEntries_find, hft, Option.map_some'], hb⟩

theorem reaches_iff_fileReach (f : File) (r p : Path) :
    Reaches (strayEntries f) r p ↔ Relation.ReflTransGen (FileStep f) r p := by
  constructor
  · intro h
    exact Relation.ReflTransGen.mono (fun a b hab => (entriesStep_iff_fileStep f a b).mp hab) h
  · intro h
    exact Relation.ReflTransGen.mono (fun a b hab => (entriesStep_iff_fileStep f a b).mpr hab) h

/-- **C1.** Exactness of the stray-type sweep: a path present in `File.types`
before `remove_stray_types` remains present afterwards if and only if it is
reachable by the pass-10 traversal, whose roots are every type whose source is
`Method` together with the resolved inner target path of every method parameter
and method result reference, and which follows struct-field types, enum-variant
payload types and alias targets transitively (looking through arrays), silently
not expanding references whose target type is missing. -/
theorem remove_stray_types_exact (f : File) (hWK : WellKeyed f) (p : Path)
    (hp : (findType f p).isSome) :
    (findType (removeStrayTypes f) p).isSome ↔ FileReachable f p := by
  have hkey : ∀ kv ∈ f.types,
      (decide (kv.2.path ∈ closureRun (strayEntries f) (strayRoots f).reverse) : Bool) =
        (fun k => decide (k ∈ closureRun (strayEntries f) (strayRoots f).reverse)) kv.1 := by
    intro kv hm
    rw [(hWK kv hm).1]
  have hfilter := btFind?_filter f.types
    (fun kv => decide (kv.2.path ∈ closureRun (strayEntries f) (strayRoots f).reverse))
    (fun k => decide (k ∈ closureRun (strayEntries f) (strayRoots f).reverse)) hkey p
  have hres : (findType (removeStrayTypes f) p).isSome =
      ((if decide (p ∈ closureRun (strayEntries f) (strayRoots f).reverse) = true
          then btFind? f.types p else none).isSome) := by
    simp only [removeStrayTypes, findType] at *
    rw [hfilter]
  rw [hres]
  by_cases hmem : p ∈ closureRun (strayEntries f) (strayRoots f).reverse
  · simp only [hmem, decide_true_eq_true, if_true]
    rw [findType] at hp
    simp only [hp, true_iff]
    rcases (closureRun_spec _ _ p).mp hmem with ⟨r, hr, hre⟩
    exact ⟨r, List.mem_reverse.mp hr, (reaches_iff_fileReach f r p).mp hre⟩
  · have : (decide (p ∈ closureRun (strayEntries f) (strayRoots f).reverse)) = false := by
      simpa using hmem
    simp only [this, Bool.false_eq_true, if_false, Option.isSome_none]
    constructor
    · intro h; cases h
    · rintro ⟨r, hr, hre⟩
      exact absurd ((closureRun_spec _ _ p).mpr
        ⟨r, List.mem_reverse.mpr hr, (reaches_iff_fileReach f r p).mpr hre⟩) hmem

/-!
## Configuration (config.rs), restricted to the fields the core consumes
-/

/-- Output names for primitive types (`Primitives`). -/
structure Primitives where
  integer : String
  number : String
  array : String
  string : String
  null : String
  boolean : String
  optional : String
deriving DecidableEq, Repr

/-- The `fixes` table (`Fixes`).  `fix.rs` reads the keyword map under the
name `make_keyword`; the field also carries the set of paths to `preserve`. -/
structure Fixes where
  stripEnumVariants : Bool
  flatten : List String
  autoFlattenOneFields : Bool
  autoFlattenOneRef : Bool
  remove : List String
  rename : List (String × String)
  replace : List (String × String)
  removeStrayTypes : Bool
  taggedEnums : List (String × String)
  makeKeyword : List (String × String)
  preserve : List String
deriving DecidableEq, Repr

/-- Generation options consumed by the dependency graph (`Generation`). -/
structure Generation where
  methodNamePrefix : Option String
  paramTypes : Bool
deriving DecidableEq, Repr

/-- The configuration (`Config`), restricted to the groups the core reads. -/
structure Config where
  primitives : Primitives
  fixes : Fixes
  generation : Generation
deriving DecidableEq, Repr

/-!
## Dependency graph (deps.rs)

A petgraph `DiGraph<String, ()>` plus the `nodes` name table is embedded as
a node list and an edge list over node names (node indices and names are in
bijection through `nodes`).
-/

/-- The dependency graph (`TypeDeps`). -/
structure TypeDeps where
  nodes : List String
  edges : List (String × String)
deriving DecidableEq, Repr

/-- `get_node`'s side effect: register the name if it is new. -/
def getNodeAdd (d : TypeDeps) (n : String) : TypeDeps :=
  if n ∈ d.nodes then d else { d with nodes := d.nodes ++ [n] }

/-- `TypeDeps::add_edge`. -/
def TypeDeps.addEdge (d : TypeDeps) (a b : String) : TypeDeps :=
  let d1 := getNodeAdd d a
  let d2 := getNodeAdd d1 b
  { d2 with edges := d2.edges ++ [(a, b)] }

/-- `lift_out`: the configured primitive name of a reference. -/
def liftOut (file : File) (config : Config) : TypeRef → String
  | .Array inner => liftOut file config inner
  | .Boolean => config.primitives.boolean
  | .Integer _ => config.primitives.integer
  | .Null => config.primitives.null
  | .Number => config.primitives.number
  | .String => config.primitives.string
  | .Keyword _ => config.primitives.string
  | .Ref path =>
    match findType file path with
    | some ty => ty.name
    | none => "BrokenReference"
  | .ExternalRef name => name

/-- `add_dep`: one dependency edge, plus the two marker edges when the
dependency comes from a non-required field. -/
def addDep (d : TypeDeps) (file : File) (config : Config) (a : String) (b : TypeRef)
    (required : Bool) : TypeDeps :=
  let bs := liftOut file config b
  let d1 := d.addEdge a bs
  if required then d1
  else (d1.addEdge a "_MaybeImplicitDefault").addEdge bs "_Optional"

/-- Model of the external `convert_case` crate's Pascal conversion, used only
to build the synthesized `"{Method}Params"` node name (no claim depends on its
exact output). -/
def toPascal (s : String) : String :=
  String.join ((s.splitOn "_").map (fun w =>
    match w.toList with
    | [] => ""
    | c :: cs => String.mk (c.toUpper :: cs)))

/-- Edges contributed by one declared type (body of the first loop of
`TypeDeps::add`). -/
def addTypeDeps (file : File) (config : Config) (acc : TypeDeps) (kv : Path × TypeDef) :
    TypeDeps :=
  match kv.2.kind with
  | .Alias a => addDep acc file config kv.2.name a.ty true
  | .Struct s =>
    s.fields.foldl (fun acc2 fkv => addDep acc2 file config kv.2.name fkv.2.ty fkv.2.required) acc
  | .Enum e =>
    e.variants.foldl (fun acc2 vkv =>
      match vkv.2.ty with
      | some inner => addDep acc2 file config kv.2.name inner true
      | none => acc2) acc

/-- Edges contributed by one method (body of the second loop of
`TypeDeps::add`). -/
def addMethodDeps (file : File) (config : Config) (acc : TypeDeps) (m : Method) : TypeDeps :=
  let identBase :=
    match config.generation.methodNamePrefix with
    | some pre => if pre.isPrefixOf m.name then m.name.drop pre.length else m.name
    | none => m.name
  if config.generation.paramTypes then
    m.params.foldl
      (fun acc2 p => addDep acc2 file config (toPascal identBase ++ "Params") p.ty p.required) acc
  else acc

/-- `TypeDeps::add`. -/
def TypeDeps.add (d : TypeDeps) (config : Config) (file : File) : TypeDeps :=
  file.methods.foldl (addMethodDeps file config)
    (file.types.foldl (addTypeDeps file config) d)

/-- The adjacency table of the graph. -/
def adjOf (d : TypeDeps) : List (String × List String) :=
  d.nodes.map (fun n => (n, d.edges.filterMap (fun e => if e.1 == n then some e.2 else none)))

/-- petgraph's `has_path_connecting` (true when `a = b`). -/
def hasPathConn (d : TypeDeps) (a b : String) : Bool :=
  decide (b ∈ closureRun (adjOf d) [a])

/-- `TypeDeps::has_path`. -/
def TypeDeps.hasPath (d : TypeDeps) (a b : String) : Bool :=
  if a = b then false
  else if a ∉ d.nodes then false
  else if b ∉ d.nodes then false
  else hasPathConn d a b

/-- Presence of a directed edge. -/
def EdgeStep (d : TypeDeps) (a b : String) : Prop :=
  (a, b) ∈ d.edges

/-- Reachability along directed edges of the graph. -/
def EdgeReaches (d : TypeDeps) (a b : String) : Prop :=
  Relation.ReflTransGen (EdgeStep d) a b

/-- Every edge endpoint is a registered node (an invariant maintained by
`add_edge`, the only way the source mutates the graph). -/
def GraphWF (d : TypeDeps) : Prop :=
  ∀ e ∈ d.edges, e.1 ∈ d.nodes ∧ e.2 ∈ d.nodes

instance instDecidableGraphWF (d : TypeDeps) : Decidable (GraphWF d) :=
  List.decidableBAll _ d.edges

/-- The condition `fix_defaults` tests on the source of an edge into the
`"_MaybeImplicitDefault"` marker (the `.filter(...)` closure). -/
def fixDefaultsCond (d : TypeDeps) (src : String) : Prop :=
  ∃ e2 ∈ d.edges, e2.1 = src ∧ (e2.2, "_Optional") ∈ d.edges ∧
    hasPathConn d e2.2 "F" = true ∧ e2.2 ≠ "F"

instance instDecidableFixDefaultsCond (d : TypeDeps) (src : String) :
    Decidable (fixDefaultsCond d src) :=
  List.decidableBEx _ d.edges

/-- `TypeDeps::fix_defaults`. -/
def fixDefaults (d : TypeDeps) : TypeDeps :=
  let d4 := getNodeAdd (getNodeAdd (getNodeAdd (getNodeAdd d
    "_MaybeImplicitDefault") "F") "F_ImplicitDefault") "_Optional"
  let srcs := d4.edges.filterMap (fun e =>
    if e.2 = "_MaybeImplicitDefault" ∧ fixDefaultsCond d4 e.1 then some e.1 else none)
  { d4 with edges := d4.edges ++ srcs.map (fun s => (s, "F_ImplicitDefault")) }

theorem btFind?_map_nodes (l : List String) (g : String → List String) (k : String) :
    btFind? (l.map (fun n => (n, g n))) k = if k ∈ l then some (g k) else none := by
  induction l with
  | nil => simp [btFind?]
  | cons n t ih =>
    by_cases h : n == k
    · have h' : n = k := by simpa using h
      subst h'
      simp [btFind?, List.find?_cons]
    · have h' : ¬ n = k := by simpa using h
      have hne : (n == k) = false := by simpa using h
      simp only [List.map_cons, btFind?, List.find?_cons, hne, Bool.false_eq_true, if_false]
      simp only [btFind?] at ih
      rw [ih]
      have hiff : k ∈ n :: t ↔ k ∈ t := by
        constructor
        · intro hm
          rcases List.mem_cons.mp hm with rfl | hm'
          · exact absurd rfl h'
          · exact hm'
        · exact List.mem_cons_of_mem _
      simp [hiff]

theorem adj_targets_mem (d : TypeDeps) (a b : String) :
    b ∈ d.edges.filterMap (fun e => if e.1 == a then some e.2 else none) ↔ (a, b) ∈ d.edges := by
  rw [List.mem_filterMap]
  constructor
  · rintro ⟨e, he, hsome⟩
    obtain ⟨x, y⟩ := e
    by_cases h : x == a
    · have hx : x = a := by simpa using h
      simp only [h, if_true] at hsome
      obtain rfl : y = b := by simpa using hsome
      subst hx
      exact he
    · simp only [h, Bool.false_eq_true, if_false] at hsome
      cases hsome
  · intro he
    exact ⟨(a, b), he, by simp⟩

theorem entriesStep_adj_iff (d : TypeDeps) (hwf : GraphWF d) (a b : String) :
    entriesStep (adjOf d) a b ↔ (a, b) ∈ d.edges := by
  constructor
  · rintro ⟨l, hl, hb⟩
    rw [adjOf, btFind?_map_nodes] at hl
    by_cases hn : a ∈ d.nodes
    · rw [if_pos hn] at hl
      cases hl
      exact (adj_targets_mem d a b).mp hb
    · rw [if_neg hn] at hl
      cases hl
  · intro he
    have hn : a ∈ d.nodes := (hwf _ he).1
    refine ⟨_, ?_, (adj_targets_mem d a b).mpr he⟩
    rw [adjOf, btFind?_map_nodes, if_pos hn]

theorem hasPathConn_iff (d : TypeDeps) (hwf : GraphWF d) (a b : String) :
    hasPathConn d a b = true ↔ EdgeReaches d a b := by
  rw [hasPathConn, decide_eq_true_eq, closureRun_spec]
  constructor
  · rintro ⟨r, hr, hre⟩
    rcases List.mem_singleton.mp hr with rfl
    exact Relation.ReflTransGen.mono
      (fun x y hxy => (entriesStep_adj_iff d hwf x y).mp hxy) hre
  · intro h
    exact ⟨a, List.mem_singleton.mpr rfl,
      Relation.ReflTransGen.mono (fun x y hxy => (entriesStep_adj_iff d hwf x y).mpr hxy) h⟩

/-- **C8.** Defensiveness and exactness of `has_path`: `has_path(a, a)` is
always false; `has_path(a, b)` is false when either endpoint is not a node of
the graph; otherwise it is true exactly when `b` is reachable from `a` along
directed edges. -/
theorem has_path_defensive :
    (∀ (d : TypeDeps) (a : String), TypeDeps.hasPath d a a = false)
    ∧ (∀ (d : TypeDeps) (a b : String), (a ∉ d.nodes ∨ b ∉ d.nodes) →
        TypeDeps.hasPath d a b = false)
    ∧ (∀ (d : TypeDeps) (a b : String), GraphWF d → a ∈ d.nodes → b ∈ d.nodes → a ≠ b →
        (TypeDeps.hasPath d a b = true ↔ EdgeReaches d a b)) := by
  refine ⟨?_, ?_, ?_⟩
  · intro d a
    simp [TypeDeps.hasPath]
  · intro d a b h
    by_cases hab : a = b
    · simp [TypeDeps.hasPath, hab]
    · rcases h with h | h
      · simp [TypeDeps.hasPath, hab, h]
      · by_cases ha : a ∈ d.nodes <;> simp [TypeDeps.hasPath, hab, ha, h]
  · intro d a b hwf ha hb hab
    rw [TypeDeps.hasPath, if_neg hab, if_neg (by simpa using ha), if_neg (by simpa using hb)]
    exact hasPathConn_iff d hwf a b

/-- Witness for C8 on the concrete graph with nodes `A`, `B` and edge `A → B`. -/
theorem has_path_defensive_witness :
    (TypeDeps.hasPath (TypeDeps.addEdge ⟨[], []⟩ "A" "B") "A" "A" = false)
    ∧ (TypeDeps.hasPath (TypeDeps.addEdge ⟨[], []⟩ "A" "B") "A" "Z" = false)
    ∧ (TypeDeps.hasPath (TypeDeps.addEdge ⟨[], []⟩ "A" "B") "A" "B" = true ↔
        EdgeReaches (TypeDeps.addEdge ⟨[], []⟩ "A" "B") "A" "B") :=
  ⟨has_path_defensive.1 _ "A",
   has_path_defensive.2.1 _ "A" "Z" (Or.inr (by decide)),
   has_path_defensive.2.2 _ "A" "B" (by decide) (by decide) (by decide) (by decide)⟩

theorem getNodeAdd_edges (d : TypeDeps) (n : String) : (getNodeAdd d n).edges = d.edges := by
  unfold getNodeAdd
  split <;> rfl

theorem getNodeAdd_nodes_mem {d : TypeDeps} {x : String} (h : x ∈ d.nodes) (n : String) :
    x ∈ (getNodeAdd d n).nodes := by
  unfold getNodeAdd
  split
  · exact h
  · exact List.mem_append_left _ h

theorem graphWF_getNodeAdd {d : TypeDeps} (hwf : GraphWF d) (n : String) :
    GraphWF (getNodeAdd d n) := by
  intro e he
  rw [getNodeAdd_edges] at he
  exact ⟨getNodeAdd_nodes_mem (hwf e he).1 n, getNodeAdd_nodes_mem (hwf e he).2 n⟩

theorem addEdge_edges_mono {d : TypeDeps} {e : String × String} (h : e ∈ d.edges)
    (a b : String) : e ∈ (d.addEdge a b).edges := by
  simp only [TypeDeps.addEdge, getNodeAdd_edges]
  exact List.mem_append_left _ h

theorem addEdge_mem_self (d : TypeDeps) (a b : String) : (a, b) ∈ (d.addEdge a b).edges := by
  simp only [TypeDeps.addEdge, getNodeAdd_edges]
  exact List.mem_append_right _ (List.mem_singleton.mpr rfl)

theorem addDep_edges_mono {d : TypeDeps} {e : String × String} (h : e ∈ d.edges)
    (file : File) (config : Config) (a : String) (b : TypeRef) (r : Bool) :
    e ∈ (addDep d file config a b r).edges := by
  unfold addDep
  split
  · exact addEdge_edges_mono h _ _
  · exact addEdge_edges_mono (addEdge_edges_mono (addEdge_edges_mono h _ _) _ _) _ _

theorem addDep_marker (d : TypeDeps) (file : File) (config : Config) (a : String) (b : TypeRef) :
    (a, "_MaybeImplicitDefault") ∈ (addDep d file config a b false).edges
    ∧ (liftOut file config b, "_Optional") ∈ (addDep d file config a b false).edges := by
  unfold addDep
  simp only [Bool.false_eq_true, if_false]
  exact ⟨addEdge_edges_mono (addEdge_mem_self _ _ _) _ _, addEdge_mem_self _ _ _⟩

theorem foldl_deps_mono {β : Type} (step : TypeDeps → β → TypeDeps)
    (hstep : ∀ acc x, ∀ e ∈ (acc : TypeDeps).edges, e ∈ (step acc x).edges) :
    ∀ (l : List β) (acc : TypeDeps), ∀ e ∈ acc.edges, e ∈ (l.foldl step acc).edges := by
  intro l
  induction l with
  | nil => intro acc e he; exact he
  | cons x t ih => intro acc e he; exact ih _ e (hstep acc x e he)

theorem foldl_deps_estab {β : Type} (step : TypeDeps → β → TypeDeps)
    (hstep : ∀ acc x, ∀ e ∈ (acc : TypeDeps).edges, e ∈ (step acc x).edges)
    {l : List β} {x : β} (hx : x ∈ l) {e : String × String}
    (hest : ∀ acc, e ∈ (step acc x).edges) :
    ∀ acc, e ∈ (l.foldl step acc).edges := by
  induction l with
  | nil => cases hx
  | cons y t ih =>
    intro acc
    rcases List.mem_cons.mp hx with rfl | hx'
    · exact foldl_deps_mono step hstep t _ e (hest acc)
    · exact ih hx' _

theorem addTypeDeps_mono (file : File) (config : Config) :
    ∀ acc kv, ∀ e ∈ (acc : TypeDeps).edges, e ∈ (addTypeDeps file config acc kv).edges := by
  intro acc kv e he
  unfold addTypeDeps
  split
  · exact addDep_edges_mono he _ _ _ _ _
  · refine foldl_deps_mono _ ?_ _ _ e he
    intro acc2 fkv e2 he2
    exact addDep_edges_mono he2 _ _ _ _ _
  · refine foldl_deps_mono _ ?_ _ _ e he
    intro acc2 vkv e2 he2
    cases vkv.2.ty with
    | some inner => exact addDep_edges_mono he2 _ _ _ _ _
    | none => exact he2

theorem addMethodDeps_mono (file : File) (config : Config) :
    ∀ acc m, ∀ e ∈ (acc : TypeDeps).edges, e ∈ (addMethodDeps file config acc m).edges := by
  intro acc m e he
  simp only [addMethodDeps]
  split
  · refine foldl_deps_mono _ ?_ _ _ e he
    intro acc2 p e2 he2
    exact addDep_edges_mono he2 _ _ _ _ _
  · exact he

/-- The declarative condition of the implicit-default analysis: `n` has an
edge into the maybe-implicit-default marker, and some target `t` of `n`'s
outgoing edges has an edge into the optional marker, a directed path to the
default-capable root `"F"`, and is not `"F"` itself. -/
def ImplicitDefaultCond (d : TypeDeps) (n : String) : Prop :=
  (n, "_MaybeImplicitDefault") ∈ d.edges ∧
  ∃ t, (n, t) ∈ d.edges ∧ (t, "_Optional") ∈ d.edges ∧ EdgeReaches d t "F" ∧ t ≠ "F"

theorem edgeReaches_congr {d d' : TypeDeps} (hE : d'.edges = d.edges) (a b : String) :
    EdgeReaches d' a b ↔ EdgeReaches d a b := by
  have hstep : EdgeStep d' = EdgeStep d := by
    funext x y
    unfold EdgeStep
    rw [hE]
  unfold EdgeReaches
  rw [hstep]

theorem fixDefaultsCond_iff (d : TypeDeps) (_hwf : GraphWF d) {d4 : TypeDeps}
    (hE : d4.edges = d.edges) (hwf4 : GraphWF d4) (n : String) :
    fixDefaultsCond d4 n ↔
      ∃ t, (n, t) ∈ d.edges ∧ (t, "_Optional") ∈ d.edges ∧ EdgeReaches d t "F" ∧ t ≠ "F" := by
  unfold fixDefaultsCond
  constructor
  · rintro ⟨e2, he2, h1, h2, h3, h4⟩
    obtain ⟨x, t⟩ := e2
    cases h1
    rw [hE] at he2 h2
    exact ⟨t, he2, h2, (edgeReaches_congr hE t "F").mp ((hasPathConn_iff d4 hwf4 t "F").mp h3), h4⟩
  · rintro ⟨t, h1, h2, h3, h4⟩
    refine ⟨(n, t), by rw [hE]; exact h1, rfl, by rw [hE]; exact h2, ?_, h4⟩
    exact (hasPathConn_iff d4 hwf4 t "F").mpr ((edgeReaches_congr hE t "F").mpr h3)

/-- **C2.** The implicit-default analysis: `fix_defaults` connects a node `n`
to the derived `"F_ImplicitDefault"` node exactly when `n` has an edge into the
`"_MaybeImplicitDefault"` marker and some target of `n`'s outgoing edges has an
edge into `"_Optional"`, a directed path to the root `"F"`, and is not `"F"`;
it adds no other edge and removes none.  During `add`, any type with a
non-required field gets an edge to the maybe-implicit-default marker and the
lifted target of the field gets an edge to the optional marker. -/
theorem fix_defaults_spec :
    (∀ d : TypeDeps, GraphWF d →
      (∀ n, (n, "F_ImplicitDefault") ∈ (fixDefaults d).edges ↔
          ((n, "F_ImplicitDefault") ∈ d.edges ∨ ImplicitDefaultCond d n))
      ∧ (∀ e ∈ (fixDefaults d).edges,
          e ∈ d.edges ∨ (e.2 = "F_ImplicitDefault" ∧ ImplicitDefaultCond d e.1))
      ∧ (∀ e ∈ d.edges, e ∈ (fixDefaults d).edges))
    ∧ (∀ (d : TypeDeps) (config : Config) (file : File), ∀ kv ∈ file.types, ∀ s,
        kv.2.kind = TypeKind.Struct s → ∀ fkv ∈ s.fields, fkv.2.required = false →
          (kv.2.name, "_MaybeImplicitDefault") ∈ (TypeDeps.add d config file).edges
          ∧ (liftOut file config fkv.2.ty, "_Optional") ∈ (TypeDeps.add d config file).edges) := by
  constructor
  · intro d hwf
    set d4 := getNodeAdd (getNodeAdd (getNodeAdd (getNodeAdd d
      "_MaybeImplicitDefault") "F") "F_ImplicitDefault") "_Optional" with hd4
    have hE : d4.edges = d.edges := by
      rw [hd4, getNodeAdd_edges, getNodeAdd_edges, getNodeAdd_edges, getNodeAdd_edges]
    have hwf4 : GraphWF d4 := by
      rw [hd4]
      exact graphWF_getNodeAdd (graphWF_getNodeAdd (graphWF_getNodeAdd
        (graphWF_getNodeAdd hwf _) _) _) _
    have hedges : (fixDefaults d).edges = d.edges ++
        (d.edges.filterMap (fun e =>
          if e.2 = "_MaybeImplicitDefault" ∧ fixDefaultsCond d4 e.1 then some e.1 else none)).map
          (fun s => (s, "F_ImplicitDefault")) := by
      simp only [fixDefaults, ← hd4, hE]
    have hsrc : ∀ n, (n, "F_ImplicitDefault") ∈ ((d.edges.filterMap (fun e =>
          if e.2 = "_MaybeImplicitDefault" ∧ fixDefaultsCond d4 e.1 then some e.1 else none)).map
          (fun s => (s, "F_ImplicitDefault"))) ↔ ImplicitDefaultCond d n := by
      intro n
      rw [List.mem_map]
      constructor
      · rintro ⟨s, hs, hpair⟩
        have hsn : s = n := by
          have := congrArg Prod.fst hpair
          simpa using this
        subst hsn
        rw [List.mem_filterMap] at hs
        rcases hs with ⟨e, he, hsome⟩
        split at hsome
        · rename_i hcond
          rcases hcond with ⟨hy, hcond2⟩
          have hx : e.1 = s := by injection hsome
          have hme : (s, "_MaybeImplicitDefault") ∈ d.edges := by
            have hee : e = (s, "_MaybeImplicitDefault") := by
              obtain ⟨x, y⟩ := e
              simp only at hx hy
              rw [hx, hy]
            rwa [hee] at he
          exact ⟨hme, (fixDefaultsCond_iff d hwf hE hwf4 s).mp (hx ▸ hcond2)⟩
        · cases hsome
      · rintro ⟨hmem, hrest⟩
        refine ⟨n, ?_, rfl⟩
        rw [List.mem_filterMap]
        refine ⟨(n, "_MaybeImplicitDefault"), hmem, ?_⟩
        rw [if_pos ⟨rfl, (fixDefaultsCond_iff d hwf hE hwf4 n).mpr hrest⟩]
    refine ⟨?_, ?_, ?_⟩
    · intro n
      rw [hedges, List.mem_append, hsrc n]
    · intro e he
      rw [hedges, List.mem_append] at he
      rcases he with he | he
      · exact Or.inl he
      · rw [List.mem_map] at he
        rcases he with ⟨s, hs, hpair⟩
        have h2 : e.2 = "F_ImplicitDefault" := by rw [← hpair]
        have h1 : e.1 = s := by rw [← hpair]
        refine Or.inr ⟨h2, ?_⟩
        have hmm := (hsrc s).mp (List.mem_map.mpr ⟨s, hs, rfl⟩)
        rw [h1]
        exact hmm
    · intro e he
      rw [hedges]
      exact List.mem_append_left _ he
  · intro d config file kv hkv s hk fkv hfkv hreq
    constructor
    · unfold TypeDeps.add
      apply foldl_deps_mono _ (addMethodDeps_mono file config)
      refine foldl_deps_estab _ (addTypeDeps_mono file config) hkv ?_ d
      intro acc
      simp only [addTypeDeps, hk]
      refine foldl_deps_estab _ ?_ hfkv ?_ acc
      · intro acc2 fkv2 e2 he2
        exact addDep_edges_mono he2 _ _ _ _ _
      · intro acc2
        rw [hreq]
        exact (addDep_marker acc2 file config kv.2.name fkv.2.ty).1
    · unfold TypeDeps.add
      apply foldl_deps_mono _ (addMethodDeps_mono file config)
      refine foldl_deps_estab _ (addTypeDeps_mono file config) hkv ?_ d
      intro acc
      simp only [addTypeDeps, hk]
      refine foldl_deps_estab _ ?_ hfkv ?_ acc
      · intro acc2 fkv2 e2 he2
        exact addDep_edges_mono he2 _ _ _ _ _
      · intro acc2
        rw [hreq]
        exact (addDep_marker acc2 file config kv.2.name fkv.2.ty).2

/-!
## Name-mangling helpers (fix.rs `common_prefix` / `common_suffix`)

Strings are processed as `List Char`; Rust's byte indices always sit on
character boundaries in these loops, so the character-index embedding is
faithful.  `Char.isUpper` models `char::is_uppercase` (identical on the
ASCII identifiers these helpers process).  Each outer loop strictly
increases its cursor, so `length + 1` fuel is an upper iteration bound.
-/

/-- Characters up to (and excluding) the next PascalCase word boundary. -/
def wordEnd (prev : Option Char) : List Char → Nat
  | [] => 0
  | c :: cs =>
    match prev with
    | some p => if ¬ p.isUpper ∧ c.isUpper then 0 else 1 + wordEnd (some c) cs
    | none => 1 + wordEnd (some c) cs

/-- The outer loop of `common_prefix`. -/
def cpLoop (strs : List (List Char)) (reference : List Char) : Nat → Nat → List Char
  | 0, pfx => reference.take pfx
  | fuel + 1, pfx =>
    let candidate := pfx + wordEnd none (reference.drop pfx)
    if strs.all (fun s => (reference.take candidate).isPrefixOf s) then
      if candidate = reference.length then reference
      else cpLoop strs reference fuel candidate
    else reference.take pfx

/-- `common_prefix`: longest word-aligned common prefix of the names. -/
def commonPrefix (strs : List (List Char)) : List Char :=
  match strs with
  | [] => []
  | reference :: _ => cpLoop strs reference (reference.length + 1) 0

/-- Characters (scanning the reversed name) up to and including the next
PascalCase word boundary; the boundary character itself is counted before
the check, as in the source. -/
def suffixWordEnd (prev : Option Char) : List Char → Nat
  | [] => 0
  | c :: cs =>
    match prev with
    | some p => if c.isUpper ∧ ¬ p.isUpper then 1 else 1 + suffixWordEnd (some c) cs
    | none => 1 + suffixWordEnd (some c) cs

/-- The outer loop of `common_suffix`, running on reversed names
(`s.ends_with(t)` is `t.reverse.isPrefixOf s.reverse`). -/
def csLoop (rstrs : List (List Char)) (rref : List Char) : Nat → Nat → List Char
  | 0, sfx => rref.take sfx
  | fuel + 1, sfx =>
    let candidate := sfx + suffixWordEnd none (rref.drop sfx)
    if rstrs.all (fun s => (rref.take candidate).isPrefixOf s) then
      if candidate = rref.length then rref
      else csLoop rstrs rref fuel candidate
    else rref.take sfx

/-- `common_suffix`: longest word-aligned common suffix of the names. -/
def commonSuffix (strs : List (List Char)) : List Char :=
  match strs with
  | [] => []
  | reference :: _ =>
    (csLoop (strs.map List.reverse) reference.reverse (reference.length + 1) 0).reverse

/-- `fixup_variants`: strip the common word-aligned prefix and suffix from
the variant names, unless there is at most one variant or the two lengths
coincide. -/
def fixupVariants (variants : List (Path × EnumVariant)) : List (Path × EnumVariant) :=
  if variants.length ≤ 1 then variants
  else
    let names := (btValues variants).map (fun v => v.name.toList)
    let cp := (commonPrefix names).length
    let cs := (commonSuffix names).length
    if cp = cs then variants
    else
      variants.map (fun kv =>
        (kv.1, { kv.2 with
          name := String.mk ((kv.2.name.toList.take (kv.2.name.toList.length - cs)).drop cp) }))

/-- Pass 1, `strip_enum_variants`. -/
def stripEnumVariantsPass (f : File) : File :=
  { f with
    types := f.types.map (fun kv =>
      match kv.2.kind with
      | .Enum e => (kv.1, { kv.2 with kind := .Enum { e with variants := fixupVariants e.variants } })
      | _ => kv) }

/-!
## The remaining fix passes (fix.rs)
-/

/-- Update the type stored under key `p` in place. -/
def updateTypeAt (f : File) (p : Path) (g : TypeDef → TypeDef) : File :=
  { f with types := f.types.map (fun kv => if kv.1 == p then (kv.1, g kv.2) else kv) }

/-- `make_keyword`: force the first struct field stored under `path` to
`Keyword value`; `none` when no struct has such a field. -/
def makeKeywordGo (path value : String) : List (Path × TypeDef) → Option (List (Path × TypeDef))
  | [] => none
  | (k, ty) :: rest =>
    match ty.kind with
    | .Struct s =>
      if btContains s.fields path then
        some ((k, { ty with kind := .Struct { s with fields := s.fields.map (fun kv =>
          if kv.1 == path then (kv.1, { kv.2 with ty := .Keyword value }) else kv) } }) :: rest)
      else (makeKeywordGo path value rest).map ((k, ty) :: ·)
    | _ => (makeKeywordGo path value rest).map ((k, ty) :: ·)

/-- The file effect of one `make_keyword` entry. -/
def makeKeywordStepFile (f : File) (kv : String × String) : File :=
  match makeKeywordGo kv.1 kv.2 f.types with
  | some ts => { f with types := ts }
  | none => f

/-- The errors pushed by one `make_keyword` entry. -/
def makeKeywordStepErrs (f : File) (kv : String × String) : List String :=
  match makeKeywordGo kv.1 kv.2 f.types with
  | some _ => []
  | none => ["can't make keyword: path not found: " ++ kv.1]

/-- Pass 2, `make_keywords`. -/
def makeKeywords (f : File) (kws : List (String × String)) (errs : List String) :
    File × List String :=
  kws.foldl (fun acc kv => (makeKeywordStepFile acc.1 kv, acc.2 ++ makeKeywordStepErrs acc.1 kv))
    (f, errs)

/-- The search half of `flatten_field`: locate the first struct carrying a
field stored under `path` and report `(flatten, target path, owner path)`,
or the field-is-primitive error. -/
def findFlattenTarget (path : String) : List (Path × TypeDef) → Option (Except String (Bool × Path × Path))
  | [] => none
  | (_, ty) :: rest =>
    match ty.kind with
    | .Struct s =>
      match btFind? s.fields path with
      | some field =>
        match field.ty with
        | .Ref target => some (.ok (field.flatten, target, ty.path))
        | _ => some (.error ("can't flatten: field is a primitive: " ++ path))
      | none => findFlattenTarget path rest
    | _ => findFlattenTarget path rest

/-- `flatten_field`.  The source `unwrap()`s the target-type lookup; a missing
target (a panic in Rust) is embedded as an error.  The owner update is keyed by
the owner's `path` field, as `get_mut(&into_type)` is. -/
def flattenField (f : File) (path : String) : Except String File :=
  match findFlattenTarget path f.types with
  | none => .error ("can't flatten: field or type not found: " ++ path)
  | some (.error e) => .error e
  | some (.ok (fl, target, into)) =>
    match btFind? f.types target with
    | none => .error ("panic: flatten target type not found: " ++ target)
    | some targetTy =>
      match targetTy.kind with
      | .Alias a =>
        .ok (updateTypeAt f into (fun ty =>
          match ty.kind with
          | .Struct s => { ty with kind := .Struct { s with fields := s.fields.map (fun kv =>
              if kv.1 == path then (kv.1, { kv.2 with ty := a.ty }) else kv) } }
          | _ => ty))
      | .Struct targetS =>
        if !fl then .error ("can't flatten: field is not flatten: " ++ path)
        else
          .ok (updateTypeAt f into (fun ty =>
            match ty.kind with
            | .Struct s => { ty with kind := .Struct { s with
                fields := btAppend (btErase s.fields path) targetS.fields } }
            | _ => ty))
      | .Enum _ => .error ("can't flatten: target type is not a struct: " ++ path)

/-- The file effect of flattening one field path. -/
def flattenFieldStepFile (f : File) (p : String) : File :=
  match flattenField f p with
  | .ok f' => f'
  | .error _ => f

/-- The errors pushed by flattening one field path. -/
def flattenFieldStepErrs (f : File) (p : String) : List String :=
  match flattenField f p with
  | .ok _ => []
  | .error e => [e]

/-- Run `flatten_field` over a list of field paths, collecting errors. -/
def flattenFieldAll (todo : List String) (f : File) (errs : List String) : File × List String :=
  todo.foldl (fun acc p => (flattenFieldStepFile acc.1 p, acc.2 ++ flattenFieldStepErrs acc.1 p))
    (f, errs)

/-- Pass 3, `flatten_fields`: configured paths that name a type are replaced
by the flatten-eligible fields referencing that type.  (The source `unwrap()`s
the referenced-type lookup; an unresolved reference is skipped here.) -/
def flattenFields (f : File) (paths : List String) (errs : List String) : File × List String :=
  let pairs := f.types.foldl (fun acc kv =>
    match kv.2.kind with
    | .Struct s => s.fields.foldl (fun acc2 fkv =>
        match fkv.2.ty with
        | .Ref p =>
          if paths.any (fun x => x == p) then
            match btFind? f.types p with
            | some replaced =>
              match replaced.kind with
              | .Alias _ => (acc2.1 ++ [p], acc2.2 ++ [fkv.2.path])
              | .Struct _ => if fkv.2.flatten then (acc2.1 ++ [p], acc2.2 ++ [fkv.2.path]) else acc2
              | .Enum _ => acc2
            | none => acc2
          else acc2
        | _ => acc2) acc
    | _ => acc) (([] : List String), ([] : List String))
  let todo := paths.filter (fun x => decide (x ∉ pairs.1)) ++ pairs.2
  flattenFieldAll todo f errs

/-- Pass 4, `flatten_one_fields`: flatten-marked fields whose target struct
has exactly one field. -/
def flattenOneFields (f : File) (errs : List String) : File × List String :=
  let cands := f.types.foldl (fun acc kv =>
    match kv.2.kind with
    | .Struct s => s.fields.foldl (fun acc2 fkv =>
        if fkv.2.flatten then
          match fkv.2.ty with
          | .Ref r =>
            match btFind? f.types r with
            | some targetTy =>
              match targetTy.kind with
              | .Struct ts => if ts.fields.length == 1 then acc2 ++ [fkv.2.path] else acc2
              | _ => acc2
            | none => acc2
          | _ => acc2
        else acc2) acc
    | _ => acc) ([] : List String)
  flattenFieldAll cands f errs

/-- `count_refs` (`get_inner_ref` coincides with `TypeRef::inner_path`). -/
def countRefs (f : File) (typePath : String) : Nat :=
  (f.types.foldl (fun n kv =>
    match kv.2.kind with
    | .Struct s => n + (s.fields.filter (fun fkv => fkv.2.ty.innerPath == some typePath)).length
    | .Enum e =>
      n + (e.variants.filter (fun vkv => (vkv.2.ty.bind TypeRef.innerPath) == some typePath)).length
    | .Alias a => n + (if a.ty.innerPath == some typePath then 1 else 0)) 0)
  + (f.methods.foldl (fun n m =>
      n + (match m.result with
           | some r => if r.ty.innerPath == some typePath then 1 else 0
           | none => 0)
        + (m.params.filter (fun p => p.ty.innerPath == some typePath)).length) 0)

/-- The file effect of merging one single-referent alias: the alias's
`TypeDef` is overwritten with the referenced type's definition (removed from
the arena) while the alias's own path and name are restored.
(`unwrap()`/`unreachable!()` situations in the source — the alias entry
vanished or changed kind under an earlier merge — are embedded as skips.) -/
def aliasMergeStepFile (f : File) (aliasPath : String) : File :=
  match btFind? f.types aliasPath with
  | none => f
  | some ty =>
    match ty.kind with
    | .Alias a =>
      match a.ty with
      | .Ref r =>
        match btFind? f.types r with
        | none => f
        | some replaced =>
          let f1 := { f with types := btErase f.types r }
          { f1 with types := f1.types.map (fun kv =>
              if kv.1 == aliasPath then
                (kv.1, { replaced with name := ty.name, path := ty.path })
              else kv) }
      | _ => f
    | _ => f

/-- The error pushed by merging one single-referent alias (a broken target
reference). -/
def aliasMergeStepErrs (f : File) (aliasPath : String) : List String :=
  match btFind? f.types aliasPath with
  | none => []
  | some ty =>
    match ty.kind with
    | .Alias a =>
      match a.ty with
      | .Ref r =>
        match btFind? f.types r with
        | none => ["can't flatten alias: broken reference found: " ++ ty.path ++ " -> " ++ r]
        | some _ => []
      | _ => []
    | _ => []

/-- The candidate scan of `flatten_one_refs`: the flatten-marked fields and
the aliases whose target is referenced exactly once. -/
def oneRefsCands (f : File) : List String × List String :=
  f.types.foldl (fun acc kv =>
    match kv.2.kind with
    | .Struct s =>
      (s.fields.foldl (fun a2 fkv =>
        if fkv.2.flatten then
          match fkv.2.ty with
          | .Ref tp => if countRefs f tp == 1 then a2 ++ [fkv.2.path] else a2
          | _ => a2
        else a2) acc.1, acc.2)
    | .Alias a =>
      (acc.1,
        match a.ty with
        | .Ref tp => if countRefs f tp == 1 then acc.2 ++ [kv.2.path] else acc.2
        | _ => acc.2)
    | .Enum _ => acc) (([] : List String), ([] : List String))

/-- Pass 5, `flatten_one_refs`: flatten-marked fields and aliases whose
target is referenced exactly once. -/
def flattenOneRefs (f : File) (errs : List String) : File × List String :=
  let afterFields := flattenFieldAll (oneRefsCands f).1 f errs
  (oneRefsCands f).2.foldl (fun acc aliasPath =>
    (aliasMergeStepFile acc.1 aliasPath, acc.2 ++ aliasMergeStepErrs acc.1 aliasPath)) afterFields

/-- The search half of `remove_thing` over struct fields and enum variants. -/
def removeFromKinds (path : String) : List (Path × TypeDef) → Option (List (Path × TypeDef))
  | [] => none
  | (k, ty) :: rest =>
    match ty.kind with
    | .Struct s =>
      if btContains s.fields path then
        some ((k, { ty with kind := .Struct { s with fields := btErase s.fields path } }) :: rest)
      else (removeFromKinds path rest).map ((k, ty) :: ·)
    | .Enum e =>
      if btContains e.variants path then
        some ((k, { ty with kind := .Enum { e with variants := btErase e.variants path } }) :: rest)
      else (removeFromKinds path rest).map ((k, ty) :: ·)
    | .Alias _ => (removeFromKinds path rest).map ((k, ty) :: ·)

/-- `remove_thing`. -/
def removeThing (f : File) (path : String) : Option File :=
  if btContains f.types path then some { f with types := btErase f.types path }
  else (removeFromKinds path f.types).map (fun ts => { f with types := ts })

/-- The file effect of one `remove` entry. -/
def removeStepFile (f : File) (p : String) : File :=
  match removeThing f p with
  | some f' => f'
  | none => f

/-- The errors pushed by one `remove` entry. -/
def removeStepErrs (f : File) (p : String) : List String :=
  match removeThing f p with
  | some _ => []
  | none => ["can't remove: path not found: " ++ p]

/-- Pass 6, `remove_things`. -/
def removeThings (f : File) (paths : List String) (errs : List String) : File × List String :=
  paths.foldl (fun acc p => (removeStepFile acc.1 p, acc.2 ++ removeStepErrs acc.1 p)) (f, errs)

/-- The top-level rewrite of `replace_type`: only a top-level `Ref` to the
replaced path becomes the external reference. -/
def rewriteRefTop (path newName : String) (t : TypeRef) : TypeRef :=
  match t with
  | .Ref p => if p == path then .ExternalRef newName else t
  | _ => t

/-- The field rewrite of `replace_type`. -/
def replaceRewriteField (path newName : String) (fld : StructField) : StructField :=
  { fld with ty := rewriteRefTop path newName fld.ty }

/-- The variant rewrite of `replace_type`. -/
def replaceRewriteVariant (path newName : String) (v : EnumVariant) : EnumVariant :=
  { v with ty := v.ty.map (rewriteRefTop path newName) }

/-- The per-kind rewrite of `replace_type`: struct fields, enum variant
payloads and alias targets, each through `rewriteRefTop`. -/
def replaceRewriteKind (path newName : String) : TypeKind → TypeKind
  | .Struct s =>
    .Struct { s with fields := s.fields.map (fun fkv =>
      (fkv.1, replaceRewriteField path newName fkv.2)) }
  | .Enum e =>
    .Enum { e with variants := e.variants.map (fun vkv =>
      (vkv.1, replaceRewriteVariant path newName vkv.2)) }
  | .Alias a => .Alias ⟨rewriteRefTop path newName a.ty⟩

/-- The per-type rewrite of `replace_type`. -/
def replaceRewriteDef (path newName : String) (td : TypeDef) : TypeDef :=
  { td with kind := replaceRewriteKind path newName td.kind }

/-- The per-method rewrite of `replace_type`: result and parameter types. -/
def replaceRewriteMethod (path newName : String) (m : Method) : Method :=
  { m with
    result := m.result.map (fun r => { r with ty := rewriteRefTop path newName r.ty }),
    params := m.params.map (fun p => { p with ty := rewriteRefTop path newName p.ty }) }

/-- `replace_type`: delete the type and rewrite every top-level reference. -/
def replaceType (f : File) (path newName : String) : Option File :=
  if !btContains f.types path then none
  else
    some { methods := f.methods.map (replaceRewriteMethod path newName),
           types := (btErase f.types path).map (fun kv =>
             (kv.1, replaceRewriteDef path newName kv.2)) }

/-- The file effect of one `replace` entry. -/
def replaceStepFile (f : File) (kv : String × String) : File :=
  match replaceType f kv.1 kv.2 with
  | some f' => f'
  | none => f

/-- The errors pushed by one `replace` entry. -/
def replaceStepErrs (f : File) (kv : String × String) : List String :=
  match replaceType f kv.1 kv.2 with
  | some _ => []
  | none => ["can't replace: type not found: " ++ kv.1]

/-- Pass 7, `replace_types`. -/
def replaceTypes (f : File) (reps : List (String × String)) (errs : List String) :
    File × List String :=
  reps.foldl (fun acc kv => (replaceStepFile acc.1 kv, acc.2 ++ replaceStepErrs acc.1 kv)) (f, errs)

/-- The search half of `rename_thing` over struct fields and enum variants. -/
def renameFromKinds (path newName : String) : List (Path × TypeDef) → Option (List (Path × TypeDef))
  | [] => none
  | (k, ty) :: rest =>
    match ty.kind with
    | .Struct s =>
      if btContains s.fields path then
        some ((k, { ty with kind := .Struct { s with fields := s.fields.map (fun kv =>
          if kv.1 == path then (kv.1, { kv.2 with name := newName }) else kv) } }) :: rest)
      else (renameFromKinds path newName rest).map ((k, ty) :: ·)
    | .Enum e =>
      if btContains e.variants path then
        some ((k, { ty with kind := .Enum { e with variants := e.variants.map (fun kv =>
          if kv.1 == path then (kv.1, { kv.2 with name := newName }) else kv) } }) :: rest)
      else (renameFromKinds path newName rest).map ((k, ty) :: ·)
    | .Alias _ => (renameFromKinds path newName rest).map ((k, ty) :: ·)

/-- `rename_thing`. -/
def renameThing (f : File) (path newName : String) : Option File :=
  if btContains f.types path then
    some { f with types := f.types.map (fun kv =>
      if kv.1 == path then (kv.1, { kv.2 with name := newName }) else kv) }
  else (renameFromKinds path newName f.types).map (fun ts => { f with types := ts })

/-- The file effect of one `rename` entry. -/
def renameStepFile (f : File) (kv : String × String) : File :=
  match renameThing f kv.1 kv.2 with
  | some f' => f'
  | none => f

/-- The errors pushed by one `rename` entry. -/
def renameStepErrs (f : File) (kv : String × String) : List String :=
  match renameThing f kv.1 kv.2 with
  | some _ => []
  | none => ["can't rename: path not found: " ++ kv.1]

/-- Pass 8, `rename_things`. -/
def renameThings (f : File) (reps : List (String × String)) (errs : List String) :
    File × List String :=
  reps.foldl (fun acc kv => (renameStepFile acc.1 kv, acc.2 ++ renameStepErrs acc.1 kv)) (f, errs)

/-- The result of `find_keyword`. -/
structure FindKeywordResult where
  fields : List (Path × Path)
  value : String
deriving DecidableEq, Repr

/-- The three mutually recursive loops of `find_keyword`, merged into one
fuel-indexed function: the top-level type dispatch, the struct-field scan
(with its running `ret` accumulator), and the enum-variant scan (with its
running field list and agreed value). -/
inductive FkCall where
  | lookup (p : Path)
  | structFields (p : Path) (fields : List (Path × StructField)) (acc : Option FindKeywordResult)
  | enumVariants (p : Path) (variants : List EnumVariant) (fieldsAcc : List (Path × Path))
      (value : Option String)

/-- `find_keyword`.  The fuel decreases on every call; the source recursion
is unbounded only on cyclic flatten chains, on which the Rust program itself
does not terminate. -/
def fkMain (f : File) (name : String) : Nat → FkCall → Except String FindKeywordResult
  | 0, _ => .error "failed to tag enum: recursion limit reached"
  | fuel + 1, .lookup p =>
    match btFind? f.types p with
    | none => .error ("failed to tag enum: path not found: " ++ p)
    | some ty =>
      match ty.kind with
      | .Struct s =>
        match btFind? s.tags name with
        | some value => .ok ⟨[], value⟩
        | none => fkMain f name fuel (.structFields p s.fields none)
      | .Enum e =>
        match e.tag with
        | .Normal => .error ("failed to tag enum: enum is already tagged: " ++ p)
        | _ => fkMain f name fuel (.enumVariants p (btValues e.variants) [] none)
      | .Alias a =>
        match a.ty with
        | .Ref r => fkMain f name fuel (.lookup r)
        | _ => .error ("failed to tag enum: inner type is a literal: " ++ p)
  | fuel + 1, .structFields p fields acc =>
    match fields with
    | [] =>
      match acc with
      | some ret => .ok ret
      | none =>
        .error ("failed to tag enum: no field with the requested name found in struct fields: " ++ p)
    | fkv :: rest =>
      let field := fkv.2
      let step1 : Except String (Option FindKeywordResult) :=
        if field.nameInJson == name then
          match field.ty with
          | .Keyword value =>
            if acc.isSome then
              .error ("failed to tag enum: multiple fields with the same name found: " ++ p)
            else .ok (some ⟨[(p, field.path)], value⟩)
          | _ => .error ("failed to tag enum: field is not a keyword: " ++ p)
        else .ok acc
      match step1 with
      | .error e => .error e
      | .ok acc1 =>
        if field.flatten then
          match field.ty with
          | .Ref r =>
            match fkMain f name fuel (.lookup r) with
            | .ok ret2 =>
              if acc1.isSome then
                .error ("failed to tag enum: multiple fields with the same name found: " ++ p)
              else fkMain f name fuel (.structFields p rest (some ret2))
            | .error _ => fkMain f name fuel (.structFields p rest acc1)
          | _ => fkMain f name fuel (.structFields p rest acc1)
        else fkMain f name fuel (.structFields p rest acc1)
  | fuel + 1, .enumVariants p variants fieldsAcc value =>
    match variants with
    | [] =>
      match value with
      | none =>
        .error ("failed to tag enum: no field with the requested name found in enum variants: " ++ p)
      | some v => .ok ⟨fieldsAcc, v⟩
    | variant :: rest =>
      match variant.ty with
      | none => .error ("failed to tag enum: variant contains no inner value: " ++ p)
      | some tyr =>
        match tyr with
        | .Ref r =>
          match fkMain f name fuel (.lookup r) with
          | .error e => .error e
          | .ok ret =>
            match value with
            | some v =>
              if v ≠ ret.value then
                .error ("failed to tag enum: multiple fields with the same name found: " ++ p)
              else fkMain f name fuel (.enumVariants p rest (fieldsAcc ++ ret.fields) (some v))
            | none => fkMain f name fuel (.enumVariants p rest (fieldsAcc ++ ret.fields) (some ret.value))
        | _ => .error ("failed to tag enum: inner type is a literal: " ++ p)

/-- A fuel bound generous enough for every terminating `find_keyword` run
(recursion depth is bounded by the type count on acyclic flatten chains,
and each level scans at most every field and variant). -/
def fkFuel (f : File) : Nat :=
  (f.types.foldl (fun n kv =>
    n + 2 + (match kv.2.kind with
      | .Struct s => s.fields.length
      | .Enum e => e.variants.length
      | .Alias _ => 0)) 0 + 2) * (f.types.length + 2)

/-- The first phase of `tag_enum`: run `find_keyword` for every variant,
collecting `(variant path, result)` pairs or the first error. -/
def tagEnumCollect (f : File) (path : Path) (tag : String) (e : EnumDef) :
    Except String (List (Path × FindKeywordResult)) :=
  (btValues e.variants).foldlM (fun acc variant =>
    match variant.ty with
    | none =>
      .error ("failed to tag enum: variant contains no inner value: " ++ path)
    | some inner =>
      match inner with
      | .Ref r =>
        match fkMain f tag (fkFuel f) (.lookup r) with
        | .ok res => .ok (acc ++ [(variant.path, res)])
        | .error e2 => .error e2
      | _ => .error ("failed to tag enum: inner type is a literal: " ++ path))
    ([] : List (Path × FindKeywordResult))

/-- `tag_enum`. -/
def tagEnum (f : File) (path : Path) (tag : String) : Except String File :=
  match btFind? f.types path with
  | none => .error ("failed to tag enum: path not found: " ++ path)
  | some ty =>
    match ty.kind with
    | .Enum e =>
      match tagEnumCollect f path tag e with
      | .error e2 => .error e2
      | .ok toFix =>
        let f1 := updateTypeAt f path (fun ty2 =>
          match ty2.kind with
          | .Enum e2 =>
            { ty2 with kind := .Enum { e2 with
              tag := .Tagged tag,
              variants := toFix.foldl (fun vs pr =>
                vs.map (fun kv =>
                  if kv.1 == pr.1 then (kv.1, { kv.2 with nameInJson := some pr.2.value })
                  else kv)) e2.variants } }
          | _ => ty2)
        let f2 := toFix.foldl (fun facc pr =>
          pr.2.fields.foldl (fun facc2 fp =>
            updateTypeAt facc2 fp.1 (fun ty3 =>
              match ty3.kind with
              | .Struct s => { ty3 with kind := .Struct {
                  fields := btErase s.fields fp.2,
                  tags := btInsert s.tags tag pr.2.value } }
              | _ => ty3)) facc) f1
        .ok f2
    | _ => .error ("failed to tag enum: type is not an enum: " ++ path)

/-- The file effect of one `tagged_enums` entry. -/
def tagEnumStepFile (f : File) (kv : String × String) : File :=
  match tagEnum f kv.1 kv.2 with
  | .ok f' => f'
  | .error _ => f

/-- The errors pushed by one `tagged_enums` entry. -/
def tagEnumStepErrs (f : File) (kv : String × String) : List String :=
  match tagEnum f kv.1 kv.2 with
  | .ok _ => []
  | .error e => [e]

/-- Pass 9, `tag_enums`. -/
def tagEnums (f : File) (tagged : List (String × String)) (errs : List String) :
    File × List String :=
  tagged.foldl (fun acc kv => (tagEnumStepFile acc.1 kv, acc.2 ++ tagEnumStepErrs acc.1 kv)) (f, errs)

/-- The `fix` pipeline body: every configured pass in the fixed order,
threading the file and the accumulated error list. -/
def fixRun (config : Config) (f : File) : File × List String :=
  let f0 := if config.fixes.stripEnumVariants then stripEnumVariantsPass f else f
  let s1 := makeKeywords f0 config.fixes.makeKeyword []
  let s2 := flattenFields s1.1 config.fixes.flatten s1.2
  let s3 := if config.fixes.autoFlattenOneFields then flattenOneFields s2.1 s2.2 else s2
  let s4 := if config.fixes.autoFlattenOneRef then flattenOneRefs s3.1 s3.2 else s3
  let s5 := removeThings s4.1 config.fixes.remove s4.2
  let s6 := replaceTypes s5.1 config.fixes.replace s5.2
  let s7 := renameThings s6.1 config.fixes.rename s6.2
  let s8 := tagEnums s7.1 config.fixes.taggedEnums s7.2
  let f9 := if config.fixes.removeStrayTypes then removeStrayTypes s8.1 else s8.1
  (f9, s8.2)

/-- `fix`: the pipeline succeeds exactly when no pass pushed an error. -/
def fix (config : Config) (f : File) : Except (List String) File :=
  let s := fixRun config f
  if s.2.isEmpty then .ok s.1 else .error s.2

/-!
## Concrete example data used by the claim theorems and witnesses
-/

/-- The default primitive names of the configuration. -/
def defaultPrimitives : Primitives := ⟨"i64", "f64", "Vec<{}>", "String", "()", "bool", "Option<{}>"⟩

/-- A generation section with every option off. -/
def defaultGeneration : Generation := ⟨none, false⟩

/-- The default `fixes` table: only the three default-on passes enabled. -/
def defaultFixes : Fixes := ⟨false, [], true, true, [], [], [], true, [], [], []⟩

/-- The default configuration. -/
def defaultConfig : Config := ⟨defaultPrimitives, defaultFixes, defaultGeneration⟩

/-- A declared type unreachable from any method. -/
def strayTypeC3 : TypeDef := ⟨"Stray", "Stray", none, .Declared, .Struct ⟨[], []⟩⟩

/-- A file whose only type is stray. -/
def exFileC3 : File := ⟨[], [("Stray", strayTypeC3)]⟩

/-- The default configuration with the stray type listed in `preserve`. -/
def exCfgC3 : Config := { defaultConfig with fixes := { defaultFixes with preserve := ["Stray"] } }

/-- A type to be replaced. -/
def exTypeT : TypeDef := ⟨"T", "T", none, .Declared, .Alias ⟨.Boolean⟩⟩

/-- A field referencing `T` directly. -/
def exFieldC4a : StructField := ⟨"S/a", "a", none, true, false, .Ref "T", "a"⟩

/-- A field referencing `T` through an array. -/
def exFieldC4arr : StructField := ⟨"S/arr", "arr", none, true, false, .Array (.Ref "T"), "arr"⟩

/-- A struct with one direct and one array-nested reference to `T`. -/
def exTypeS4 : TypeDef :=
  ⟨"S", "S", none, .Declared, .Struct ⟨[], [("S/a", exFieldC4a), ("S/arr", exFieldC4arr)]⟩⟩

/-- The replace-pass example file. -/
def exFileC4 : File := ⟨[], [("S", exTypeS4), ("T", exTypeT)]⟩

/-- Variant payload struct whose discriminant-named field is a required plain string. -/
def exTypeA5a : TypeDef :=
  ⟨"A", "A", none, .Declared, .Struct ⟨[], [("A/t", ⟨"A/t", "t", none, true, false, .String, "tag"⟩)]⟩⟩

/-- Variant payload struct whose discriminant-named field is an optional plain string. -/
def exTypeB5a : TypeDef :=
  ⟨"B", "B", none, .Declared, .Struct ⟨[], [("B/t", ⟨"B/t", "t", none, false, false, .String, "tag"⟩)]⟩⟩

/-- An untagged two-variant enum over `A` and `B`. -/
def exEnumE5 : TypeDef :=
  ⟨"E", "E", none, .Declared, .Enum ⟨[("E/v1", ⟨"E/v1", "V1", none, none, some (.Ref "A")⟩),
    ("E/v2", ⟨"E/v2", "V2", none, none, some (.Ref "B")⟩)], .Untagged⟩⟩

/-- Tagging example (error case): same field name, not keyword-typed,
differing required-ness. -/
def exFileC5a : File := ⟨[], [("A", exTypeA5a), ("B", exTypeB5a), ("E", exEnumE5)]⟩

/-- Variant payload struct with a single `Keyword "x"` discriminant field. -/
def exTypeA5b : TypeDef :=
  ⟨"A", "A", none, .Declared, .Struct ⟨[], [("A/t", ⟨"A/t", "t", none, true, false, .Keyword "x", "tag"⟩)]⟩⟩

/-- Variant payload struct with a single `Keyword "y"` discriminant field. -/
def exTypeB5b : TypeDef :=
  ⟨"B", "B", none, .Declared, .Struct ⟨[], [("B/t", ⟨"B/t", "t", none, true, false, .Keyword "y", "tag"⟩)]⟩⟩

/-- Tagging example (success case): single keyword fields with distinct values. -/
def exFileC5b : File := ⟨[], [("A", exTypeA5b), ("B", exTypeB5b), ("E", exEnumE5)]⟩

/-- A struct whose flatten-marked field references `P` (referenced twice). -/
def exTypeA7 : TypeDef :=
  ⟨"A", "A", none, .Declared, .Struct ⟨[], [("A/a1", ⟨"A/a1", "a1", none, true, true, .Ref "P", "a1"⟩)]⟩⟩

/-- A struct keeping a second (non-flatten) reference to `P` alive. -/
def exTypeC7 : TypeDef :=
  ⟨"C", "C", none, .Declared, .Struct ⟨[], [("C/c", ⟨"C/c", "c", none, true, false, .Ref "P", "c"⟩)]⟩⟩

/-- A two-field struct whose flatten-marked second field references the empty
struct `Z` (referenced once): the first run splices `Z` away, leaving `P`
single-field. -/
def exTypeP7 : TypeDef :=
  ⟨"P", "P", none, .Declared, .Struct ⟨[],
    [("P/p1", ⟨"P/p1", "p1", none, true, false, .Boolean, "p1"⟩),
     ("P/p2", ⟨"P/p2", "p2", none, true, true, .Ref "Z", "p2"⟩)]⟩⟩

/-- An empty struct. -/
def exTypeZ7 : TypeDef := ⟨"Z", "Z", none, .Declared, .Struct ⟨[], []⟩⟩

/-- The fixed-point counterexample file: a method keeps `A` and `C` (hence
`P`) alive. -/
def exFileC7 : File :=
  ⟨[⟨"m", none, [⟨"c", none, .Ref "C", true⟩], some ⟨.Ref "A", none⟩⟩],
   [("A", exTypeA7), ("C", exTypeC7), ("P", exTypeP7), ("Z", exTypeZ7)]⟩

/-!
## Read-only accessors used to state claim-level facts
-/

/-- The type of the field stored at `fp` inside the struct stored at `tp`. -/
def fieldTy (f : File) (tp fp : Path) : Option TypeRef :=
  (btFind? f.types tp).bind (fun ty =>
    match ty.kind with
    | .Struct s => (btFind? s.fields fp).map (·.ty)
    | _ => none)

/-- The payload type of the variant stored at `vp` inside the enum at `tp`. -/
def variantTy (f : File) (tp vp : Path) : Option (Option TypeRef) :=
  (btFind? f.types tp).bind (fun ty =>
    match ty.kind with
    | .Enum e => (btFind? e.variants vp).map (·.ty)
    | _ => none)

/-- The target of the alias stored at `tp`. -/
def aliasTy (f : File) (tp : Path) : Option TypeRef :=
  (btFind? f.types tp).bind (fun ty =>
    match ty.kind with
    | .Alias a => some a.ty
    | _ => none)

/-- The tag representation of the enum stored at `tp`. -/
def enumTagOf (f : File) (tp : Path) : Option EnumTag :=
  (btFind? f.types tp).bind (fun ty =>
    match ty.kind with
    | .Enum e => some e.tag
    | _ => none)

/-- The recorded discriminant values of the struct stored at `tp`. -/
def structTags (f : File) (tp : Path) : Option (List (String × String)) :=
  (btFind? f.types tp).bind (fun ty =>
    match ty.kind with
    | .Struct s => some s.tags
    | _ => none)

/-- `exFileC4` after replacing `T` by the external name `Ext`: the direct
reference is rewritten, the array-nested one is not, and `T` is gone. -/
def exFileC4Replaced : File :=
  ⟨[], [("S", ⟨"S", "S", none, .Declared, .Struct ⟨[],
    [("S/a", ⟨"S/a", "a", none, true, false, .ExternalRef "Ext", "a"⟩),
     ("S/arr", ⟨"S/arr", "arr", none, true, false, .Array (.Ref "T"), "arr"⟩)]⟩⟩)]⟩

/-- `exFileC5b` after tagging `E` with discriminant `tag`. -/
def exFileC5bTagged : File :=
  ⟨[], [("A", ⟨"A", "A", none, .Declared, .Struct ⟨[("tag", "x")], []⟩⟩),
        ("B", ⟨"B", "B", none, .Declared, .Struct ⟨[("tag", "y")], []⟩⟩),
        ("E", ⟨"E", "E", none, .Declared, .Enum
          ⟨[("E/v1", ⟨"E/v1", "V1", some "x", none, some (.Ref "A")⟩),
            ("E/v2", ⟨"E/v2", "V2", some "y", none, some (.Ref "B")⟩)], .Tagged "tag"⟩⟩)]⟩

/-- `P` after its empty-struct field `p2` is spliced away by the first run. -/
def exTypeP7fixed : TypeDef :=
  ⟨"P", "P", none, .Declared, .Struct ⟨[],
    [("P/p1", ⟨"P/p1", "p1", none, true, false, .Boolean, "p1"⟩)]⟩⟩

/-- `exFileC7` after the first `fix` run: `Z` is gone and `P` is single-field,
but `A`'s flatten field survives (it was not a candidate when scanned). -/
def exFileC7Fix1 : File :=
  ⟨[⟨"m", none, [⟨"c", none, .Ref "C", true⟩], some ⟨.Ref "A", none⟩⟩],
   [("A", exTypeA7), ("C", exTypeC7), ("P", exTypeP7fixed)]⟩

/-- `A` after the second run flattens its now-single-field target `P`. -/
def exTypeA7fixed : TypeDef :=
  ⟨"A", "A", none, .Declared, .Struct ⟨[],
    [("P/p1", ⟨"P/p1", "p1", none, true, false, .Boolean, "p1"⟩)]⟩⟩

/-- `exFileC7Fix1` after the second `fix` run: `A` changed again. -/
def exFileC7Fix2 : File :=
  ⟨[⟨"m", none, [⟨"c", none, .Ref "C", true⟩], some ⟨.Ref "A", none⟩⟩],
   [("A", exTypeA7fixed), ("C", exTypeC7), ("P", exTypeP7fixed)]⟩

/-- A method-sourced struct whose flatten field references `P` (its only
reference). -/
def exTypeA7b : TypeDef :=
  ⟨"A", "A", none, .Method, .Struct ⟨[], [("A/a", ⟨"A/a", "a", none, true, true, .Ref "P", "a"⟩)]⟩⟩

/-- An alias to a primitive. -/
def exTypeAL7b : TypeDef := ⟨"AL", "AL", none, .Declared, .Alias ⟨.Boolean⟩⟩

/-- A method-sourced struct whose flatten field is the only reference to the
alias `AL`. -/
def exTypeP7b : TypeDef :=
  ⟨"P", "P", none, .Method, .Struct ⟨[],
    [("P/f", ⟨"P/f", "f", none, true, true, .Ref "AL", "f"⟩),
     ("P/g", ⟨"P/g", "g", none, true, false, .Boolean, "g"⟩)]⟩⟩

/-- A file on which the first `fix` run succeeds but the second fails: run 1
splices `P`'s fields into `A` (keeping their `P/...` keys) and rewrites only
`A`'s copy of `P/f` through the alias, so run 2 re-flags `P`'s own copy of
`P/f` but `flatten_field` finds `A`'s primitive copy first and errors. -/
def exFileC7b : File := ⟨[], [("A", exTypeA7b), ("AL", exTypeAL7b), ("P", exTypeP7b)]⟩

/-- `A` after run 1: `P`'s fields spliced in under their original keys, with
`A`'s copy of `P/f` rewritten to the alias target. -/
def exTypeA7bSpliced : TypeDef :=
  ⟨"A", "A", none, .Method, .Struct ⟨[],
    [("P/f", ⟨"P/f", "f", none, true, true, .Boolean, "f"⟩),
     ("P/g", ⟨"P/g", "g", none, true, false, .Boolean, "g"⟩)]⟩⟩

/-- `exFileC7b` after the first (successful) `fix` run. -/
def exFileC7bFix1 : File :=
  ⟨[], [("A", exTypeA7bSpliced), ("AL", exTypeAL7b), ("P", exTypeP7b)]⟩

/-- Two variants sharing the word-aligned prefix `Foo`. -/
def exVariantsFooBar : List (Path × EnumVariant) :=
  [("E/a", ⟨"E/a", "FooBar", none, none, none⟩), ("E/b", ⟨"E/b", "FooBaz", none, none, none⟩)]

/-- Two variants both named `Foo`. -/
def exVariantsFoo : List (Path × EnumVariant) :=
  [("E/a", ⟨"E/a", "Foo", none, none, none⟩), ("E/b", ⟨"E/b", "Foo", none, none, none⟩)]

deriving instance DecidableEq for Except

/-- **C3.** The code ignores `fixes.preserve`: with `remove_stray_types`
enabled and `"Stray"` both present in `File.types` and listed in `preserve`,
the whole pipeline succeeds yet deletes the preserved type, contradicting the
configuration's documented force-keep semantics. -/
theorem preserve_not_consulted :
    "Stray" ∈ exCfgC3.fixes.preserve
    ∧ (findType exFileC3 "Stray").isSome
    ∧ fix exCfgC3 exFileC3 = .ok ⟨[], []⟩
    ∧ findType (fixRun exCfgC3 exFileC3).1 "Stray" = none := by
  decide

/-- **C9.** Word-aligned variant stripping: `["FooBar", "FooBaz"]` becomes
`["Bar", "Baz"]`; two variants both named `"Foo"` are left unchanged because
the common-prefix length equals the common-suffix length; enums with at most
one variant are never changed. -/
theorem strip_variant_cases :
    fixupVariants exVariantsFooBar =
      [("E/a", ⟨"E/a", "Bar", none, none, none⟩), ("E/b", ⟨"E/b", "Baz", none, none, none⟩)]
    ∧ fixupVariants exVariantsFoo = exVariantsFoo
    ∧ (∀ variants : List (Path × EnumVariant), variants.length ≤ 1 →
        fixupVariants variants = variants) := by
  refine ⟨by decide, by decide, ?_⟩
  intro variants h
  simp [fixupVariants, h]

/-- Witness for C9 at a concrete single-variant enum. -/
theorem strip_variant_cases_witness :
    fixupVariants [("E/a", ⟨"E/a", "FooBar", none, none, none⟩)] =
      [("E/a", ⟨"E/a", "FooBar", none, none, none⟩)] :=
  strip_variant_cases.2.2 _ (by decide)

/-- Counterexample for C4: after replacing `T`, the reference to `T` nested
inside the `Array` type of field `S/arr` is *not* rewritten to the external
reference. -/
theorem replace_type_array_counterexample :
    replaceType exFileC4 "T" "Ext" = some exFileC4Replaced
    ∧ fieldTy exFileC4Replaced "S" "S/arr" = some (.Array (.Ref "T"))
    ∧ (TypeRef.Array (.Ref "T") ≠ TypeRef.ExternalRef "Ext") := by
  decide

/-- **C5.** Enum tagging: (i) when both payload structs carry the
discriminant-named field but it is not `Keyword`-typed (here plain strings of
differing required-ness), `tag_enum` errors and the enum is untouched;
(ii) when each payload struct carries exactly one `Keyword` field whose source
name is the discriminant, with distinct literals, tagging succeeds: the enum
becomes `Tagged`, the fields are removed, and the literals are recorded in
`StructDef.tags`. -/
theorem tag_enum_cases :
    (tagEnum exFileC5a "E" "tag" = .error "failed to tag enum: field is not a keyword: A")
    ∧ tagEnums exFileC5a [("E", "tag")] []
        = (exFileC5a, ["failed to tag enum: field is not a keyword: A"])
    ∧ enumTagOf exFileC5a "E" = some .Untagged
    ∧ tagEnum exFileC5b "E" "tag" = .ok exFileC5bTagged
    ∧ enumTagOf exFileC5bTagged "E" = some (.Tagged "tag")
    ∧ fieldTy exFileC5bTagged "A" "A/t" = none
    ∧ fieldTy exFileC5bTagged "B" "B/t" = none
    ∧ structTags exFileC5bTagged "A" = some [("tag", "x")]
    ∧ structTags exFileC5bTagged "B" = some [("tag", "y")] := by
  decide

/-- Counterexample for C7: the fix pipeline with the default-on passes is not
a fixed point — the first run leaves a flatten field whose target became
single-field, and the second run flattens it, changing the file again. -/
theorem fix_not_fixed_point :
    fix defaultConfig exFileC7 = .ok exFileC7Fix1
    ∧ fix defaultConfig exFileC7Fix1 = .ok exFileC7Fix2
    ∧ exFileC7Fix2 ≠ exFileC7Fix1 := by
  decide

/-- Amended C7: the fix pipeline gives no round-trip guarantee at all on an
already-fixed file.  The second run may succeed yet change the file further
(`exFileC7Fix1`: a flatten field whose target became single-field is processed,
and only the third run is a fixed point), and it may even fail outright
(`exFileC7bFix1`: run 1 spliced `P`'s fields into `A` under their `P/...` keys
and rewrote only `A`'s copy of `P/f` through the alias, so run 2 re-flags `P`'s
own copy of `P/f` as a single-referent flatten candidate but `flatten_field`
resolves the duplicated key to `A`'s now-primitive copy first and errors). -/
theorem fix_second_run_not_guaranteed :
    (fix defaultConfig exFileC7Fix1 = .ok exFileC7Fix2
    ∧ exFileC7Fix2 ≠ exFileC7Fix1
    ∧ fix defaultConfig exFileC7Fix2 = .ok exFileC7Fix2)
    ∧ (fix defaultConfig exFileC7b = .ok exFileC7bFix1
    ∧ fix defaultConfig exFileC7bFix1
        = .error ["can't flatten: field is a primitive: P/f"]) := by
  decide

theorem btFind?_erase_self {α : Type} (l : List (Path × α)) (k : Path) :
    btFind? (btErase l k) k = none := by
  induction l with
  | nil => rfl
  | cons kv t ih =>
    by_cases h : kv.1 == k
    · have h' : (kv.1 != k) = false := by simp [bne]; simpa using h
      simp only [btErase, List.filter_cons, h', Bool.false_eq_true, if_false]
      simp only [btErase] at ih
      exact ih
    · have h' : (kv.1 != k) = true := by simp [bne]; simpa using h
      have hf : (kv.1 == k) = false := by simpa using h
      simp only [btErase, List.filter_cons, h', if_true, btFind?, List.find?_cons, hf,
        Bool.false_eq_true, if_false]
      simp only [btErase, btFind?] at ih
      exact ih

theorem btFind?_erase_ne {α : Type} (l : List (Path × α)) (k k' : Path) (h : k' ≠ k) :
    btFind? (btErase l k) k' = btFind? l k' := by
  induction l with
  | nil => rfl
  | cons kv t ih =>
    by_cases hk : kv.1 == k
    · have hk1 : kv.1 = k := by simpa using hk
      have h' : (kv.1 != k) = false := by simp [bne]; simpa using hk
      have hne : (kv.1 == k') = false := by
        simp only [beq_eq_false_iff_ne, ne_eq]
        rw [hk1]
        exact fun he => h he.symm
      simp only [btErase, List.filter_cons, h', Bool.false_eq_true, if_false, btFind?,
        List.find?_cons, hne]
      simpa [btErase, btFind?, hne] using ih
    · have h' : (kv.1 != k) = true := by simp [bne]; simpa using hk
      simp only [btErase, List.filter_cons, h', if_true, btFind?, List.find?_cons]
      by_cases hk' : kv.1 == k'
      · simp [hk']
      · have hf : (kv.1 == k') = false := by simpa using hk'
        simp only [hf, Bool.false_eq_true, if_false]
        simpa [btErase, btFind?] using ih

theorem btFind?_map_values {α β : Type} (l : List (Path × α)) (g : α → β) (k : Path) :
    btFind? (l.map (fun kv => (kv.1, g kv.2))) k = (btFind? l k).map g := by
  have h := btFind?_map_entries l (fun kv => g kv.2) k
  rw [h, btFind?]
  cases l.find? (fun kv => kv.1 == k) <;> simp

/-- Amended **C4.** Replace semantics: when the path names an existing type,
`replace_type` removes it and rewrites every *top-level* `Ref` to it — in
struct field types, enum variant payloads, alias targets, method parameter
and result types — into `ExternalRef(name)`, while references nested inside
`Array` types are left unchanged; when the path names nothing, exactly one
error is appended for that entry and the file is unchanged. -/
theorem replace_type_spec (f : File) (path newName : String) :
    (btContains f.types path = false →
      replaceType f path newName = none
      ∧ (∀ errs, replaceTypes f [(path, newName)] errs
          = (f, errs ++ ["can't replace: type not found: " ++ path])))
    ∧ (∀ f', replaceType f path newName = some f' →
        btFind? f'.types path = none
        ∧ (∀ errs, replaceTypes f [(path, newName)] errs = (f', errs))
        ∧ (∀ tp fp, tp ≠ path →
            fieldTy f' tp fp = (fieldTy f tp fp).map (rewriteRefTop path newName))
        ∧ (∀ tp vp, tp ≠ path →
            variantTy f' tp vp = (variantTy f tp vp).map (Option.map (rewriteRefTop path newName)))
        ∧ (∀ tp, tp ≠ path →
            aliasTy f' tp = (aliasTy f tp).map (rewriteRefTop path newName))
        ∧ f'.methods = f.methods.map (replaceRewriteMethod path newName))
    ∧ rewriteRefTop path newName (.Ref path) = .ExternalRef newName
    ∧ (∀ inner, rewriteRefTop path newName (.Array inner) = .Array inner) := by
  refine ⟨?_, ?_, ?_, ?_⟩
  · intro h
    constructor
    · simp [replaceType, h]
    · intro errs
      simp [replaceTypes, replaceStepFile, replaceStepErrs, replaceType, h]
  · intro f' h
    cases hcb : btContains f.types path with
    | false => simp [replaceType, hcb] at h
    | true =>
      simp only [replaceType, hcb, Bool.not_true, Bool.false_eq_true, if_false,
        Option.some.injEq] at h
      subst h
      refine ⟨?_, ?_, ?_, ?_, ?_, rfl⟩
      · show btFind? ((btErase f.types path).map
          (fun kv => (kv.1, replaceRewriteDef path newName kv.2))) path = none
        rw [btFind?_map_values (btErase f.types path) (replaceRewriteDef path newName) path,
          btFind?_erase_self]
        rfl
      · intro errs
        simp [replaceTypes, replaceStepFile, replaceStepErrs, replaceType, hcb]
      · intro tp fp hne
        show (btFind? ((btErase f.types path).map
            (fun kv => (kv.1, replaceRewriteDef path newName kv.2))) tp).bind _ = _
        rw [btFind?_map_values (btErase f.types path) (replaceRewriteDef path newName) tp,
          btFind?_erase_ne _ _ _ hne]
        simp only [fieldTy]
        cases hft : btFind? f.types tp with
        | none => simp
        | some ty =>
          simp only [Option.map_some', Option.some_bind, replaceRewriteDef]
          cases hk : ty.kind with
          | Struct s =>
            simp only [replaceRewriteKind]
            rw [btFind?_map_values s.fields (replaceRewriteField path newName) fp]
            cases hff : btFind? s.fields fp <;> simp [replaceRewriteField]
          | Enum e => simp [replaceRewriteKind]
          | Alias a => simp [replaceRewriteKind]
      · intro tp vp hne
        show (btFind? ((btErase f.types path).map
            (fun kv => (kv.1, replaceRewriteDef path newName kv.2))) tp).bind _ = _
        rw [btFind?_map_values (btErase f.types path) (replaceRewriteDef path newName) tp,
          btFind?_erase_ne _ _ _ hne]
        simp only [variantTy]
        cases hft : btFind? f.types tp with
        | none => simp
        | some ty =>
          simp only [Option.map_some', Option.some_bind, replaceRewriteDef]
          cases hk : ty.kind with
          | Struct s => simp [replaceRewriteKind]
          | Enum e =>
            simp only [replaceRewriteKind]
            rw [btFind?_map_values e.variants (replaceRewriteVariant path newName) vp]
            cases hvv : btFind? e.variants vp <;> simp [replaceRewriteVariant]
          | Alias a => simp [replaceRewriteKind]
      · intro tp hne
        show (btFind? ((btErase f.types path).map
            (fun kv => (kv.1, replaceRewriteDef path newName kv.2))) tp).bind _ = _
        rw [btFind?_map_values (btErase f.types path) (replaceRewriteDef path newName) tp,
          btFind?_erase_ne _ _ _ hne]
        simp only [aliasTy]
        cases hft : btFind? f.types tp with
        | none => simp
        | some ty =>
          simp only [Option.map_some', Option.some_bind, replaceRewriteDef]
          cases hk : ty.kind with
          | Struct s => simp [replaceRewriteKind]
          | Enum e => simp [replaceRewriteKind]
          | Alias a => simp [replaceRewriteKind]
  · simp [rewriteRefTop]
  · intro inner
    rfl

/-- Witness for the amended C4 at the concrete replace example. -/
theorem replace_type_spec_witness :
    btFind? exFileC4Replaced.types "T" = none
    ∧ fieldTy exFileC4Replaced "S" "S/a"
        = (fieldTy exFileC4 "S" "S/a").map (rewriteRefTop "T" "Ext") := by
  have h := (replace_type_spec exFileC4 "T" "Ext").2.1 exFileC4Replaced (by decide)
  exact ⟨h.1, h.2.2.1 "S" "S/a" (by decide)⟩

/-!
## Error accumulation (C6)

Every error-producing pass is a fold whose step appends fresh errors to the
running list and computes the next file independently of that list; the
accumulated error list therefore decomposes as the concatenation of the
passes' own error outputs.
-/

theorem foldl_err_accum {β : Type} (φ : File → β → File) (ψ : File → β → List String) :
    ∀ (l : List β) (f : File) (errs : List String),
      l.foldl (fun acc x => (φ acc.1 x, acc.2 ++ ψ acc.1 x)) (f, errs)
        = ((l.foldl (fun acc x => (φ acc.1 x, acc.2 ++ ψ acc.1 x)) (f, [])).1,
            errs ++ (l.foldl (fun acc x => (φ acc.1 x, acc.2 ++ ψ acc.1 x)) (f, [])).2) := by
  intro l
  induction l with
  | nil => intro f errs; simp
  | cons x t ih =>
    intro f errs
    simp only [List.foldl_cons]
    rw [ih (φ f x) (errs ++ ψ f x), ih (φ f x) ([] ++ ψ f x)]
    simp [List.append_assoc]

theorem makeKeywords_accum (f : File) (kws : List (String × String)) (errs : List String) :
    makeKeywords f kws errs = ((makeKeywords f kws []).1, errs ++ (makeKeywords f kws []).2) := by
  unfold makeKeywords
  exact foldl_err_accum _ _ kws f errs

theorem flattenFieldAll_accum (todo : List String) (f : File) (errs : List String) :
    flattenFieldAll todo f errs
      = ((flattenFieldAll todo f []).1, errs ++ (flattenFieldAll todo f []).2) := by
  unfold flattenFieldAll
  exact foldl_err_accum _ _ todo f errs

theorem flattenFields_accum (f : File) (paths : List String) (errs : List String) :
    flattenFields f paths errs
      = ((flattenFields f paths []).1, errs ++ (flattenFields f paths []).2) := by
  simp only [flattenFields]
  exact flattenFieldAll_accum _ f errs

theorem flattenOneFields_accum (f : File) (errs : List String) :
    flattenOneFields f errs
      = ((flattenOneFields f []).1, errs ++ (flattenOneFields f []).2) := by
  simp only [flattenOneFields]
  exact flattenFieldAll_accum _ f errs

theorem flattenOneRefs_accum (f : File) (errs : List String) :
    flattenOneRefs f errs
      = ((flattenOneRefs f []).1, errs ++ (flattenOneRefs f []).2) := by
  simp only [flattenOneRefs]
  rcases hX : flattenFieldAll (oneRefsCands f).1 f [] with ⟨g1, e1⟩
  have h1 : flattenFieldAll (oneRefsCands f).1 f errs = (g1, errs ++ e1) := by
    rw [flattenFieldAll_accum _ f errs, hX]
  rw [h1,
    foldl_err_accum aliasMergeStepFile aliasMergeStepErrs (oneRefsCands f).2 g1 (errs ++ e1),
    foldl_err_accum aliasMergeStepFile aliasMergeStepErrs (oneRefsCands f).2 g1 e1]
  simp [List.append_assoc]

theorem removeThings_accum (f : File) (paths : List String) (errs : List String) :
    removeThings f paths errs
      = ((removeThings f paths []).1, errs ++ (removeThings f paths []).2) := by
  unfold removeThings
  exact foldl_err_accum _ _ paths f errs

theorem replaceTypes_accum (f : File) (reps : List (String × String)) (errs : List String) :
    replaceTypes f reps errs
      = ((replaceTypes f reps []).1, errs ++ (replaceTypes f reps []).2) := by
  unfold replaceTypes
  exact foldl_err_accum _ _ reps f errs

theorem renameThings_accum (f : File) (reps : List (String × String)) (errs : List String) :
    renameThings f reps errs
      = ((renameThings f reps []).1, errs ++ (renameThings f reps []).2) := by
  unfold renameThings
  exact foldl_err_accum _ _ reps f errs

theorem tagEnums_accum (f : File) (tagged : List (String × String)) (errs : List String) :
    tagEnums f tagged errs
      = ((tagEnums f tagged []).1, errs ++ (tagEnums f tagged []).2) := by
  unfold tagEnums
  exact foldl_err_accum _ _ tagged f errs

theorem opt_pass_accum (flag : Bool) (pass : File → List String → File × List String)
    (hacc : ∀ f errs, pass f errs = ((pass f []).1, errs ++ (pass f []).2))
    (f : File) (errs : List String) :
    (if flag then pass f errs else (f, errs))
      = ((if flag then pass f [] else (f, [])).1,
          errs ++ (if flag then pass f [] else (f, [])).2) := by
  cases flag with
  | false => simp
  | true => simpa using hacc f errs

/-- **C6.** Pipeline error aggregation: `fix` runs every configured pass in
the fixed order regardless of errors from earlier passes (each pass's input
file is the previous pass's output, independently of the error list), the
accumulated error list is the concatenation of the passes' own error outputs,
and the pipeline succeeds exactly when that list is empty; a failure carries
exactly the accumulated errors. -/
theorem fix_error_aggregation (config : Config) (f : File) :
    (fixRun config f
      = (let f0 := if config.fixes.stripEnumVariants then stripEnumVariantsPass f else f
         let p1 := makeKeywords f0 config.fixes.makeKeyword []
         let p2 := flattenFields p1.1 config.fixes.flatten []
         let p3 := if config.fixes.autoFlattenOneFields then flattenOneFields p2.1 [] else (p2.1, [])
         let p4 := if config.fixes.autoFlattenOneRef then flattenOneRefs p3.1 [] else (p3.1, [])
         let p5 := removeThings p4.1 config.fixes.remove []
         let p6 := replaceTypes p5.1 config.fixes.replace []
         let p7 := renameThings p6.1 config.fixes.rename []
         let p8 := tagEnums p7.1 config.fixes.taggedEnums []
         ((if config.fixes.removeStrayTypes then removeStrayTypes p8.1 else p8.1),
          p1.2 ++ p2.2 ++ p3.2 ++ p4.2 ++ p5.2 ++ p6.2 ++ p7.2 ++ p8.2)))
    ∧ (∀ g, fix config f = .ok g ↔ ((fixRun config f).2 = [] ∧ g = (fixRun config f).1))
    ∧ (∀ es, fix config f = .error es → es = (fixRun config f).2 ∧ es ≠ []) := by
  refine ⟨?_, ?_, ?_⟩
  · simp only [fixRun]
    rcases hp1 : makeKeywords (if config.fixes.stripEnumVariants then stripEnumVariantsPass f
      else f) config.fixes.makeKeyword [] with ⟨f1, e1⟩
    dsimp only
    rcases hp2 : flattenFields f1 config.fixes.flatten [] with ⟨f2, e2⟩
    rw [flattenFields_accum f1 config.fixes.flatten e1, hp2]
    dsimp only
    rcases hp3 : (if config.fixes.autoFlattenOneFields then flattenOneFields f2 []
      else (f2, [])) with ⟨f3, e3⟩
    rw [opt_pass_accum config.fixes.autoFlattenOneFields flattenOneFields
      flattenOneFields_accum f2 (e1 ++ e2), hp3]
    dsimp only
    rcases hp4 : (if config.fixes.autoFlattenOneRef then flattenOneRefs f3 []
      else (f3, [])) with ⟨f4, e4⟩
    rw [opt_pass_accum config.fixes.autoFlattenOneRef flattenOneRefs
      flattenOneRefs_accum f3 (e1 ++ e2 ++ e3), hp4]
    dsimp only
    rcases hp5 : removeThings f4 config.fixes.remove [] with ⟨f5, e5⟩
    rw [removeThings_accum f4 config.fixes.remove (e1 ++ e2 ++ e3 ++ e4), hp5]
    dsimp only
    rcases hp6 : replaceTypes f5 config.fixes.replace [] with ⟨f6, e6⟩
    rw [replaceTypes_accum f5 config.fixes.replace (e1 ++ e2 ++ e3 ++ e4 ++ e5), hp6]
    dsimp only
    rcases hp7 : renameThings f6 config.fixes.rename [] with ⟨f7, e7⟩
    rw [renameThings_accum f6 config.fixes.rename (e1 ++ e2 ++ e3 ++ e4 ++ e5 ++ e6), hp7]
    dsimp only
    rcases hp8 : tagEnums f7 config.fixes.taggedEnums [] with ⟨f8, e8⟩
    rw [tagEnums_accum f7 config.fixes.taggedEnums (e1 ++ e2 ++ e3 ++ e4 ++ e5 ++ e6 ++ e7), hp8]
  · intro g
    simp only [fix]
    cases hsnd : (fixRun config f).2 with
    | nil => simp [List.isEmpty_nil, eq_comm]
    | cons x xs => simp
  · intro es
    simp only [fix]
    cases hsnd : (fixRun config f).2 with
    | nil => simp
    | cons x xs =>
      simp only [List.isEmpty_cons, Bool.false_eq_true, if_false, Except.error.injEq]
      rintro rfl
      simp

/-- Witness for C1: on the concrete fixed-point example file, the kept type
`A` is a method root and so reachable. -/
theorem remove_stray_types_exact_witness :
    WellKeyed exFileC7
    ∧ (findType exFileC7 "A").isSome
    ∧ ((findType (removeStrayTypes exFileC7) "A").isSome ↔ FileReachable exFileC7 "A") :=
  ⟨by decide, by decide, remove_stray_types_exact exFileC7 (by decide) "A" (by decide)⟩

/-- A concrete graph with `N → _MaybeImplicitDefault`, `N → T`,
`T → _Optional` and `T → F`. -/
def exD2 : TypeDeps :=
  ((((TypeDeps.mk [] []).addEdge "N" "_MaybeImplicitDefault").addEdge
    "N" "T").addEdge "T" "_Optional").addEdge "T" "F"

/-- A file with one struct carrying one non-required boolean field. -/
def exFileC2m : File :=
  ⟨[], [("S", ⟨"S", "S", none, .Declared,
    .Struct ⟨[], [("S/f", ⟨"S/f", "f", none, false, false, .Boolean, "f"⟩)]⟩⟩)]⟩

/-- Witness for C2 at the concrete graph and file. -/
theorem fix_defaults_spec_witness :
    ((("N", "F_ImplicitDefault") ∈ (fixDefaults exD2).edges ↔
        (("N", "F_ImplicitDefault") ∈ exD2.edges ∨ ImplicitDefaultCond exD2 "N"))
     ∧ (("S", "_MaybeImplicitDefault") ∈ (TypeDeps.add ⟨[], []⟩ defaultConfig exFileC2m).edges
        ∧ (liftOut exFileC2m defaultConfig TypeRef.Boolean, "_Optional")
            ∈ (TypeDeps.add ⟨[], []⟩ defaultConfig exFileC2m).edges)) :=
  ⟨(fix_defaults_spec.1 exD2 (by decide)).1 "N",
   fix_defaults_spec.2 ⟨[], []⟩ defaultConfig exFileC2m
     ("S", ⟨"S", "S", none, .Declared,
       .Struct ⟨[], [("S/f", ⟨"S/f", "f", none, false, false, .Boolean, "f"⟩)]⟩⟩)
     (by decide)
     ⟨[], [("S/f", ⟨"S/f", "f", none, false, false, .Boolean, "f"⟩)]⟩ rfl
     ("S/f", ⟨"S/f", "f", none, false, false, .Boolean, "f"⟩) (by decide) rfl⟩

/-- A configuration whose only configured fix is removing a missing path. -/
def exCfgC6 : Config :=
  { defaultConfig with fixes :=
    { defaultFixes with remove := ["Nope"], removeStrayTypes := false } }

/-- Witness for C6: a failing pipeline returns exactly its accumulated errors. -/
theorem fix_error_aggregation_witness :
    ["can't remove: path not found: Nope"] = (fixRun exCfgC6 ⟨[], []⟩).2
    ∧ ["can't remove: path not found: Nope"] ≠ [] :=
  (fix_error_aggregation exCfgC6 ⟨[], []⟩).2.2
    ["can't remove: path not found: Nope"] (by decide)

/-!
## Path-keying preservation (C10)

Each map operation the passes perform either keeps entries (filter/erase),
rewrites a value without touching its `path` (the `map`-with-`if` updates),
or inserts entries that carry their own key as path (splices and the alias
merge); the invariant `WellKeyed` is preserved throughout.
-/

theorem keyed_filter {α : Type} (P : Path × α → Prop) (l : List (Path × α)) (q : Path × α → Bool)
    (hl : ∀ kv ∈ l, P kv) : ∀ kv ∈ l.filter q, P kv :=
  fun kv hm => hl kv (List.mem_of_mem_filter hm)

theorem keyed_map_values_p {α : Type} (P : Path × α → Prop) (l : List (Path × α)) (g : α → α)
    (hl : ∀ kv ∈ l, P kv) (hg : ∀ k v, P (k, v) → P (k, g v)) :
    ∀ kv ∈ l.map (fun kv => (kv.1, g kv.2)), P kv := by
  intro kv hm
  rcases List.mem_map.mp hm with ⟨x, hx, rfl⟩
  exact hg x.1 x.2 (hl x hx)

theorem keyed_map_if {α : Type} (P : Path × α → Prop) (l : List (Path × α)) (p : Path)
    (g : α → α) (hl : ∀ kv ∈ l, P kv) (hg : ∀ k v, P (k, v) → P (k, g v)) :
    ∀ kv ∈ l.map (fun kv => if kv.1 == p then (kv.1, g kv.2) else kv), P kv := by
  intro kv hm
  rcases List.mem_map.mp hm with ⟨x, hx, rfl⟩
  by_cases hc : x.1 == p
  · simp only [hc, if_true]
    exact hg x.1 x.2 (hl x hx)
  · have hc' : (x.1 == p) = false := by simpa using hc
    simp only [hc', Bool.false_eq_true, if_false]
    exact hl x hx

theorem keyed_map_if_const {α : Type} (P : Path × α → Prop) (l : List (Path × α)) (p : Path)
    (v : α) (hl : ∀ kv ∈ l, P kv) (hv : ∀ k, k = p → P (k, v)) :
    ∀ kv ∈ l.map (fun kv => if kv.1 == p then (kv.1, v) else kv), P kv := by
  intro kv hm
  rcases List.mem_map.mp hm with ⟨x, hx, rfl⟩
  by_cases hc : x.1 == p
  · simp only [hc, if_true]
    exact hv x.1 (by simpa using hc)
  · have hc' : (x.1 == p) = false := by simpa using hc
    simp only [hc', Bool.false_eq_true, if_false]
    exact hl x hx

theorem keyed_insertNew {α : Type} (P : Path × α → Prop) (k : Path) (v : α) (hv : P (k, v)) :
    ∀ l, (∀ kv ∈ l, P kv) → ∀ kv ∈ btInsertNew k v l, P kv := by
  intro l
  induction l with
  | nil =>
    intro _ kv hm
    simp only [btInsertNew, List.mem_singleton] at hm
    rw [hm]
    exact hv
  | cons x t ih =>
    intro hl kv hm
    simp only [btInsertNew] at hm
    split at hm
    · rcases List.mem_cons.mp hm with rfl | hm'
      · exact hv
      · exact hl _ hm'
    · rcases List.mem_cons.mp hm with rfl | hm'
      · exact hl _ (List.mem_cons_self _ _)
      · exact ih (fun kv2 h2 => hl kv2 (List.mem_cons_of_mem _ h2)) _ hm'

theorem keyed_insert {α : Type} (P : Path × α → Prop) (l : List (Path × α)) (k : Path) (v : α)
    (hl : ∀ kv ∈ l, P kv) (hv : P (k, v)) : ∀ kv ∈ btInsert l k v, P kv := by
  intro kv hm
  simp only [btInsert] at hm
  split at hm
  · rcases List.mem_map.mp hm with ⟨x, hx, rfl⟩
    by_cases hc : x.1 == k
    · simp only [hc, if_true]
      exact hv
    · have hc' : (x.1 == k) = false := by simpa using hc
      simp only [hc', Bool.false_eq_true, if_false]
      exact hl x hx
  · exact keyed_insertNew P k v hv l hl kv hm

theorem keyed_append {α : Type} (P : Path × α → Prop) :
    ∀ (other l : List (Path × α)), (∀ kv ∈ l, P kv) → (∀ kv ∈ other, P kv) →
      ∀ kv ∈ btAppend l other, P kv := by
  intro other
  induction other with
  | nil => intro l hl _ kv hm; exact hl kv hm
  | cons o t ih =>
    intro l hl hother kv hm
    simp only [btAppend, List.foldl_cons] at hm
    refine ih (btInsert l o.1 o.2) ?_ (fun kv2 h2 => hother kv2 (List.mem_cons_of_mem _ h2)) kv ?_
    · exact keyed_insert P l o.1 o.2 hl (hother o (List.mem_cons_self _ _))
    · exact hm

theorem wk_find {f : File} (h : WellKeyed f) {p : Path} {ty : TypeDef}
    (hf : btFind? f.types p = some ty) : ty.path = p ∧ KindKeyed ty.kind := by
  unfold btFind? at hf
  cases hfind : f.types.find? (fun kv => kv.1 == p) with
  | none => rw [hfind] at hf; cases hf
  | some kv =>
    rw [hfind] at hf
    simp only [Option.map_some', Option.some.injEq] at hf
    have hmem := List.mem_of_find?_eq_some hfind
    have hpred : (kv.1 == p) = true := by
      have hx := @List.find?_some _ _ _ _ hfind
      simpa using hx
    have hk := h kv hmem
    subst hf
    exact ⟨hk.1.trans (by simpa using hpred), hk.2⟩

theorem updateTypeAt_wk (f : File) (p : Path) (g : TypeDef → TypeDef) (h : WellKeyed f)
    (hg : ∀ ty : TypeDef, KindKeyed ty.kind → (g ty).path = ty.path ∧ KindKeyed (g ty).kind) :
    WellKeyed (updateTypeAt f p g) := by
  intro kv hm
  simp only [updateTypeAt] at hm
  rcases List.mem_map.mp hm with ⟨x, hx, rfl⟩
  by_cases hc : x.1 == p
  · simp only [hc, if_true]
    have hxk := h x hx
    refine ⟨?_, (hg x.2 hxk.2).2⟩
    rw [(hg x.2 hxk.2).1, hxk.1]
  · have hc' : (x.1 == p) = false := by simpa using hc
    simp only [hc', Bool.false_eq_true, if_false]
    exact h x hx

theorem fixupVariants_keyed (variants : List (Path × EnumVariant))
    (h : ∀ kv ∈ variants, kv.2.path = kv.1) :
    ∀ kv ∈ fixupVariants variants, kv.2.path = kv.1 := by
  unfold fixupVariants
  split
  · exact h
  · dsimp only
    split
    · exact h
    · intro kv hm
      rcases List.mem_map.mp hm with ⟨x, hx, rfl⟩
      exact h x hx

theorem stripEnumVariantsPass_wk (f : File) (h : WellKeyed f) :
    WellKeyed (stripEnumVariantsPass f) := by
  intro kv hm
  simp only [stripEnumVariantsPass] at hm
  rcases List.mem_map.mp hm with ⟨x, hx, rfl⟩
  have hxk := h x hx
  split
  · rename_i e heq
    refine ⟨hxk.1, ?_⟩
    have h2 := hxk.2
    rw [heq] at h2
    exact fixupVariants_keyed e.variants h2
  · exact hxk

theorem makeKeywordGo_wk (path value : String) :
    ∀ (l : List (Path × TypeDef)), (∀ kv ∈ l, kv.2.path = kv.1 ∧ KindKeyed kv.2.kind) →
      ∀ r, makeKeywordGo path value l = some r →
        ∀ kv ∈ r, kv.2.path = kv.1 ∧ KindKeyed kv.2.kind := by
  intro l
  induction l with
  | nil => intro _ r hr; cases hr
  | cons x t ih =>
    intro hl r hr
    obtain ⟨k, ty⟩ := x
    have hhead := hl (k, ty) (List.mem_cons_self _ _)
    have htail : ∀ kv ∈ t, kv.2.path = kv.1 ∧ KindKeyed kv.2.kind :=
      fun kv hm => hl kv (List.mem_cons_of_mem _ hm)
    simp only [makeKeywordGo] at hr
    split at hr
    · rename_i s heq
      split at hr
      · simp only [Option.some.injEq] at hr
        subst hr
        intro kv hm
        rcases List.mem_cons.mp hm with rfl | hm'
        · refine ⟨hhead.1, ?_⟩
          have hkk := hhead.2
          rw [heq] at hkk
          exact keyed_map_if (fun kv : Path × StructField => kv.2.path = kv.1) s.fields path
            (fun fld => { fld with ty := .Keyword value }) hkk (fun k2 v2 hp => hp)
        · exact htail kv hm'
      · cases hgo : makeKeywordGo path value t with
        | none => rw [hgo] at hr; cases hr
        | some r' =>
          rw [hgo] at hr
          simp only [Option.map_some', Option.some.injEq] at hr
          subst hr
          intro kv hm
          rcases List.mem_cons.mp hm with rfl | hm'
          · exact hhead
          · exact ih htail r' hgo kv hm'
    · cases hgo : makeKeywordGo path value t with
      | none => rw [hgo] at hr; cases hr
      | some r' =>
        rw [hgo] at hr
        simp only [Option.map_some', Option.some.injEq] at hr
        subst hr
        intro kv hm
        rcases List.mem_cons.mp hm with rfl | hm'
        · exact hhead
        · exact ih htail r' hgo kv hm'

theorem makeKeywordStepFile_wk (f : File) (kv : String × String) (h : WellKeyed f) :
    WellKeyed (makeKeywordStepFile f kv) := by
  unfold makeKeywordStepFile
  cases hgo : makeKeywordGo kv.1 kv.2 f.types with
  | none => exact h
  | some ts =>
    intro kv2 hm
    exact makeKeywordGo_wk kv.1 kv.2 f.types h ts hgo kv2 hm

theorem flattenField_wk (f : File) (p : String) (h : WellKeyed f) :
    ∀ f', flattenField f p = .ok f' → WellKeyed f' := by
  intro f' hf
  unfold flattenField at hf
  split at hf
  · cases hf
  · cases hf
  · rename_i fl target into heqfind
    split at hf
    · cases hf
    · rename_i targetTy heq
      split at hf
      · rename_i a heqk
        simp only [Except.ok.injEq] at hf
        subst hf
        refine updateTypeAt_wk f into _ h ?_
        intro ty hkk
        split
        · rename_i s heq2
          refine ⟨rfl, ?_⟩
          have hkk2 := hkk
          rw [heq2] at hkk2
          exact keyed_map_if (fun kv : Path × StructField => kv.2.path = kv.1) s.fields p
            (fun fld => { fld with ty := a.ty }) hkk2 (fun k2 v2 hp => hp)
        · exact ⟨rfl, hkk⟩
      · rename_i targetS heqk
        split at hf
        · cases hf
        · simp only [Except.ok.injEq] at hf
          subst hf
          refine updateTypeAt_wk f into _ h ?_
          intro ty hkk
          split
          · rename_i s heq2
            refine ⟨rfl, ?_⟩
            have hkk2 := hkk
            rw [heq2] at hkk2
            have htgt := (wk_find h heq).2
            rw [heqk] at htgt
            exact keyed_append (fun kv : Path × StructField => kv.2.path = kv.1) targetS.fields
              (btErase s.fields p)
              (keyed_filter (fun kv : Path × StructField => kv.2.path = kv.1) s.fields _ hkk2) htgt
          · exact ⟨rfl, hkk⟩
      · cases hf

theorem flattenFieldStepFile_wk (f : File) (p : String) (h : WellKeyed f) :
    WellKeyed (flattenFieldStepFile f p) := by
  unfold flattenFieldStepFile
  cases hf : flattenField f p with
  | ok f' => exact flattenField_wk f p h f' hf
  | error e => exact h

theorem aliasMergeStepFile_wk (f : File) (aliasPath : String) (h : WellKeyed f) :
    WellKeyed (aliasMergeStepFile f aliasPath) := by
  unfold aliasMergeStepFile
  split
  · exact h
  · rename_i ty hty
    split
    · rename_i a heqk
      split
      · rename_i r heqr
        split
        · exact h
        · rename_i replaced heqrep
          intro kv hm
          simp only [List.mem_map] at hm
          rcases hm with ⟨x, hx, rfl⟩
          have hx' : x ∈ f.types := List.mem_of_mem_filter hx
          by_cases hc : x.1 == aliasPath
          · simp only [hc, if_true]
            have hrep := wk_find h heqrep
            have htya := wk_find h hty
            refine ⟨?_, hrep.2⟩
            have hx1 : x.1 = aliasPath := by simpa using hc
            show ty.path = x.1
            rw [htya.1, hx1]
          · have hc' : (x.1 == aliasPath) = false := by simpa using hc
            simp only [hc', Bool.false_eq_true, if_false]
            exact h x hx'
      · exact h
    · exact h

theorem removeFromKinds_wk (path : String) :
    ∀ (l : List (Path × TypeDef)), (∀ kv ∈ l, kv.2.path = kv.1 ∧ KindKeyed kv.2.kind) →
      ∀ r, removeFromKinds path l = some r →
        ∀ kv ∈ r, kv.2.path = kv.1 ∧ KindKeyed kv.2.kind := by
  intro l
  induction l with
  | nil => intro _ r hr; cases hr
  | cons x t ih =>
    intro hl r hr
    obtain ⟨k, ty⟩ := x
    have hhead := hl (k, ty) (List.mem_cons_self _ _)
    have htail : ∀ kv ∈ t, kv.2.path = kv.1 ∧ KindKeyed kv.2.kind :=
      fun kv hm => hl kv (List.mem_cons_of_mem _ hm)
    simp only [removeFromKinds] at hr
    split at hr
    · rename_i s heq
      split at hr
      · simp only [Option.some.injEq] at hr
        subst hr
        intro kv hm
        rcases List.mem_cons.mp hm with rfl | hm'
        · refine ⟨hhead.1, ?_⟩
          have hkk := hhead.2
          rw [heq] at hkk
          exact keyed_filter (fun kv : Path × StructField => kv.2.path = kv.1) s.fields _ hkk
        · exact htail kv hm'
      · cases hgo : removeFromKinds path t with
        | none => rw [hgo] at hr; cases hr
        | some r' =>
          rw [hgo] at hr
          simp only [Option.map_some', Option.some.injEq] at hr
          subst hr
          intro kv hm
          rcases List.mem_cons.mp hm with rfl | hm'
          · exact hhead
          · exact ih htail r' hgo kv hm'
    · rename_i e heq
      split at hr
      · simp only [Option.some.injEq] at hr
        subst hr
        intro kv hm
        rcases List.mem_cons.mp hm with rfl | hm'
        · refine ⟨hhead.1, ?_⟩
          have hkk := hhead.2
          rw [heq] at hkk
          exact keyed_filter (fun kv : Path × EnumVariant => kv.2.path = kv.1) e.variants _ hkk
        · exact htail kv hm'
      · cases hgo : removeFromKinds path t with
        | none => rw [hgo] at hr; cases hr
        | some r' =>
          rw [hgo] at hr
          simp only [Option.map_some', Option.some.injEq] at hr
          subst hr
          intro kv hm
          rcases List.mem_cons.mp hm with rfl | hm'
          · exact hhead
          · exact ih htail r' hgo kv hm'
    · cases hgo : removeFromKinds path t with
      | none => rw [hgo] at hr; cases hr
      | some r' =>
        rw [hgo] at hr
        simp only [Option.map_some', Option.some.injEq] at hr
        subst hr
        intro kv hm
        rcases List.mem_cons.mp hm with rfl | hm'
        · exact hhead
        · exact ih htail r' hgo kv hm'

theorem removeStepFile_wk (f : File) (p : String) (h : WellKeyed f) :
    WellKeyed (removeStepFile f p) := by
  unfold removeStepFile removeThing
  split
  · rename_i hsome
    split at hsome
    · simp only [Option.some.injEq] at hsome
      subst hsome
      intro kv hm
      exact h kv (List.mem_of_mem_filter hm)
    · cases hgo : removeFromKinds p f.types with
      | none => rw [hgo] at hsome; cases hsome
      | some r' =>
        rw [hgo] at hsome
        simp only [Option.map_some', Option.some.injEq] at hsome
        subst hsome
        intro kv hm
        exact removeFromKinds_wk p f.types h r' hgo kv hm
  · exact h

theorem replaceRewriteDef_wk (path newName : String) (k : Path) (td : TypeDef)
    (hp : td.path = k ∧ KindKeyed td.kind) :
    (replaceRewriteDef path newName td).path = k
    ∧ KindKeyed (replaceRewriteDef path newName td).kind := by
  refine ⟨hp.1, ?_⟩
  show KindKeyed (replaceRewriteKind path newName td.kind)
  have hkk := hp.2
  cases hk : td.kind with
  | Struct s =>
    rw [hk] at hkk
    simp only [replaceRewriteKind]
    exact keyed_map_values_p (fun kv : Path × StructField => kv.2.path = kv.1) s.fields
      (replaceRewriteField path newName) hkk (fun k2 v2 hp2 => hp2)
  | Enum e =>
    rw [hk] at hkk
    simp only [replaceRewriteKind]
    exact keyed_map_values_p (fun kv : Path × EnumVariant => kv.2.path = kv.1) e.variants
      (replaceRewriteVariant path newName) hkk (fun k2 v2 hp2 => hp2)
  | Alias a =>
    simp only [replaceRewriteKind]
    trivial

theorem replaceStepFile_wk (f : File) (kv : String × String) (h : WellKeyed f) :
    WellKeyed (replaceStepFile f kv) := by
  unfold replaceStepFile
  cases hrep : replaceType f kv.1 kv.2 with
  | none => exact h
  | some f' =>
    simp only [replaceType] at hrep
    split at hrep
    · cases hrep
    · simp only [Option.some.injEq] at hrep
      subst hrep
      intro kv2 hm
      rcases List.mem_map.mp hm with ⟨x, hx, rfl⟩
      have hx' : x ∈ f.types := List.mem_of_mem_filter hx
      exact replaceRewriteDef_wk kv.1 kv.2 x.1 x.2 (h x hx')

theorem renameFromKinds_wk (path newName : String) :
    ∀ (l : List (Path × TypeDef)), (∀ kv ∈ l, kv.2.path = kv.1 ∧ KindKeyed kv.2.kind) →
      ∀ r, renameFromKinds path newName l = some r →
        ∀ kv ∈ r, kv.2.path = kv.1 ∧ KindKeyed kv.2.kind := by
  intro l
  induction l with
  | nil => intro _ r hr; cases hr
  | cons x t ih =>
    intro hl r hr
    obtain ⟨k, ty⟩ := x
    have hhead := hl (k, ty) (List.mem_cons_self _ _)
    have htail : ∀ kv ∈ t, kv.2.path = kv.1 ∧ KindKeyed kv.2.kind :=
      fun kv hm => hl kv (List.mem_cons_of_mem _ hm)
    simp only [renameFromKinds] at hr
    split at hr
    · rename_i s heq
      split at hr
      · simp only [Option.some.injEq] at hr
        subst hr
        intro kv hm
        rcases List.mem_cons.mp hm with rfl | hm'
        · refine ⟨hhead.1, ?_⟩
          have hkk := hhead.2
          rw [heq] at hkk
          exact keyed_map_if (fun kv : Path × StructField => kv.2.path = kv.1) s.fields path
            (fun fld => { fld with name := newName }) hkk (fun k2 v2 hp => hp)
        · exact htail kv hm'
      · cases hgo : renameFromKinds path newName t with
        | none => rw [hgo] at hr; cases hr
        | some r' =>
          rw [hgo] at hr
          simp only [Option.map_some', Option.some.injEq] at hr
          subst hr
          intro kv hm
          rcases List.mem_cons.mp hm with rfl | hm'
          · exact hhead
          · exact ih htail r' hgo kv hm'
    · rename_i e heq
      split at hr
      · simp only [Option.some.injEq] at hr
        subst hr
        intro kv hm
        rcases List.mem_cons.mp hm with rfl | hm'
        · refine ⟨hhead.1, ?_⟩
          have hkk := hhead.2
          rw [heq] at hkk
          exact keyed_map_if (fun kv : Path × EnumVariant => kv.2.path = kv.1) e.variants path
            (fun v => { v with name := newName }) hkk (fun k2 v2 hp => hp)
        · exact htail kv hm'
      · cases hgo : renameFromKinds path newName t with
        | none => rw [hgo] at hr; cases hr
        | some r' =>
          rw [hgo] at hr
          simp only [Option.map_some', Option.some.injEq] at hr
          subst hr
          intro kv hm
          rcases List.mem_cons.mp hm with rfl | hm'
          · exact hhead
          · exact ih htail r' hgo kv hm'
    · cases hgo : renameFromKinds path newName t with
      | none => rw [hgo] at hr; cases hr
      | some r' =>
        rw [hgo] at hr
        simp only [Option.map_some', Option.some.injEq] at hr
        subst hr
        intro kv hm
        rcases List.mem_cons.mp hm with rfl | hm'
        · exact hhead
        · exact ih htail r' hgo kv hm'

theorem renameStepFile_wk (f : File) (kv : String × String) (h : WellKeyed f) :
    WellKeyed (renameStepFile f kv) := by
  unfold renameStepFile renameThing
  split
  · rename_i f' hsome
    split at hsome
    · simp only [Option.some.injEq] at hsome
      subst hsome
      exact keyed_map_if (fun kv2 : Path × TypeDef => kv2.2.path = kv2.1 ∧ KindKeyed kv2.2.kind)
        f.types kv.1 (fun ty => { ty with name := kv.2 }) h (fun k2 v2 hp => hp)
    · cases hgo : renameFromKinds kv.1 kv.2 f.types with
      | none => rw [hgo] at hsome; cases hsome
      | some r' =>
        rw [hgo] at hsome
        simp only [Option.map_some', Option.some.injEq] at hsome
        subst hsome
        intro kv2 hm
        exact renameFromKinds_wk kv.1 kv.2 f.types h r' hgo kv2 hm
  · exact h

theorem tagVariantsFold_keyed (toFix : List (Path × FindKeywordResult)) :
    ∀ (vs : List (Path × EnumVariant)), (∀ kv ∈ vs, kv.2.path = kv.1) →
      ∀ kv ∈ toFix.foldl (fun vs pr =>
          vs.map (fun kv =>
            if kv.1 == pr.1 then (kv.1, { kv.2 with nameInJson := some pr.2.value }) else kv)) vs,
        kv.2.path = kv.1 := by
  induction toFix with
  | nil => intro vs hvs kv hm; exact hvs kv hm
  | cons pr t ih =>
    intro vs hvs kv hm
    simp only [List.foldl_cons] at hm
    exact ih _ (keyed_map_if (fun kv : Path × EnumVariant => kv.2.path = kv.1) vs pr.1
      (fun v => { v with nameInJson := some pr.2.value }) hvs (fun k2 v2 hp => hp)) kv hm

theorem foldl_file_wk {β : Type} (step : File → β → File)
    (hstep : ∀ g x, WellKeyed g → WellKeyed (step g x)) :
    ∀ (l : List β) (g : File), WellKeyed g → WellKeyed (l.foldl step g) := by
  intro l
  induction l with
  | nil => intro g hg; exact hg
  | cons x t ih => intro g hg; exact ih _ (hstep g x hg)

theorem tagEnum_wk (f : File) (path tag : String) (h : WellKeyed f) :
    ∀ f', tagEnum f path tag = .ok f' → WellKeyed f' := by
  intro f' hf
  unfold tagEnum at hf
  split at hf
  · cases hf
  · rename_i ty hty
    split at hf
    · rename_i e heqk
      split at hf
      · cases hf
      · rename_i toFix hcollect
        simp only [Except.ok.injEq] at hf
        subst hf
        have h1 : WellKeyed (updateTypeAt f path (fun ty2 =>
            match ty2.kind with
            | .Enum e2 =>
              { ty2 with kind := .Enum { e2 with
                tag := .Tagged tag,
                variants := toFix.foldl (fun vs pr =>
                  vs.map (fun kv =>
                    if kv.1 == pr.1 then (kv.1, { kv.2 with nameInJson := some pr.2.value })
                    else kv)) e2.variants } }
            | _ => ty2)) := by
          refine updateTypeAt_wk f path _ h ?_
          intro ty2 hkk
          split
          · rename_i e2 heq2
            refine ⟨rfl, ?_⟩
            have hkk2 := hkk
            rw [heq2] at hkk2
            exact tagVariantsFold_keyed toFix e2.variants hkk2
          · exact ⟨rfl, hkk⟩
        refine foldl_file_wk _ ?_ toFix _ h1
        intro g pr hg
        refine foldl_file_wk _ ?_ pr.2.fields g hg
        intro g2 fp hg2
        refine updateTypeAt_wk g2 fp.1 _ hg2 ?_
        intro ty3 hkk3
        split
        · rename_i s heq3
          refine ⟨rfl, ?_⟩
          have hkk4 := hkk3
          rw [heq3] at hkk4
          exact keyed_filter (fun kv : Path × StructField => kv.2.path = kv.1) s.fields _ hkk4
        · exact ⟨rfl, hkk3⟩
    · cases hf

theorem tagEnumStepFile_wk (f : File) (kv : String × String) (h : WellKeyed f) :
    WellKeyed (tagEnumStepFile f kv) := by
  unfold tagEnumStepFile
  cases hte : tagEnum f kv.1 kv.2 with
  | ok f' => exact tagEnum_wk f kv.1 kv.2 h f' hte
  | error e => exact h

theorem removeStrayTypes_wk (f : File) (h : WellKeyed f) : WellKeyed (removeStrayTypes f) := by
  intro kv hm
  simp only [removeStrayTypes] at hm
  exact h kv (List.mem_of_mem_filter hm)

theorem foldl_pass_wk {β : Type} (φ : File → β → File) (ψ : File → β → List String)
    (hφ : ∀ g x, WellKeyed g → WellKeyed (φ g x)) :
    ∀ (l : List β) (acc : File × List String), WellKeyed acc.1 →
      WellKeyed ((l.foldl (fun acc x => (φ acc.1 x, acc.2 ++ ψ acc.1 x)) acc).1) := by
  intro l
  induction l with
  | nil => intro acc hacc; exact hacc
  | cons x t ih => intro acc hacc; exact ih _ (hφ acc.1 x hacc)

theorem makeKeywords_wk (f : File) (kws : List (String × String)) (errs : List String)
    (h : WellKeyed f) : WellKeyed (makeKeywords f kws errs).1 := by
  unfold makeKeywords
  exact foldl_pass_wk _ _ makeKeywordStepFile_wk kws (f, errs) h

theorem flattenFieldAll_wk (todo : List String) (f : File) (errs : List String)
    (h : WellKeyed f) : WellKeyed (flattenFieldAll todo f errs).1 := by
  unfold flattenFieldAll
  exact foldl_pass_wk _ _ flattenFieldStepFile_wk todo (f, errs) h

theorem flattenFields_wk (f : File) (paths : List String) (errs : List String)
    (h : WellKeyed f) : WellKeyed (flattenFields f paths errs).1 := by
  simp only [flattenFields]
  exact flattenFieldAll_wk _ f errs h

theorem flattenOneFields_wk (f : File) (errs : List String)
    (h : WellKeyed f) : WellKeyed (flattenOneFields f errs).1 := by
  simp only [flattenOneFields]
  exact flattenFieldAll_wk _ f errs h

theorem flattenOneRefs_wk (f : File) (errs : List String)
    (h : WellKeyed f) : WellKeyed (flattenOneRefs f errs).1 := by
  simp only [flattenOneRefs]
  exact foldl_pass_wk _ _ aliasMergeStepFile_wk (oneRefsCands f).2 _
    (flattenFieldAll_wk (oneRefsCands f).1 f errs h)

theorem removeThings_wk (f : File) (paths : List String) (errs : List String)
    (h : WellKeyed f) : WellKeyed (removeThings f paths errs).1 := by
  unfold removeThings
  exact foldl_pass_wk _ _ removeStepFile_wk paths (f, errs) h

theorem replaceTypes_wk (f : File) (reps : List (String × String)) (errs : List String)
    (h : WellKeyed f) : WellKeyed (replaceTypes f reps errs).1 := by
  unfold replaceTypes
  exact foldl_pass_wk _ _ replaceStepFile_wk reps (f, errs) h

theorem renameThings_wk (f : File) (reps : List (String × String)) (errs : List String)
    (h : WellKeyed f) : WellKeyed (renameThings f reps errs).1 := by
  unfold renameThings
  exact foldl_pass_wk _ _ renameStepFile_wk reps (f, errs) h

theorem tagEnums_wk (f : File) (tagged : List (String × String)) (errs : List String)
    (h : WellKeyed f) : WellKeyed (tagEnums f tagged errs).1 := by
  unfold tagEnums
  exact foldl_pass_wk _ _ tagEnumStepFile_wk tagged (f, errs) h

theorem fixRun_wk (config : Config) (f : File) (h : WellKeyed f) :
    WellKeyed (fixRun config f).1 := by
  simp only [fixRun]
  have h0 : WellKeyed (if config.fixes.stripEnumVariants then stripEnumVariantsPass f else f) := by
    split
    · exact stripEnumVariantsPass_wk f h
    · exact h
  generalize (if config.fixes.stripEnumVariants then stripEnumVariantsPass f else f) = f0 at h0 ⊢
  have h1 := makeKeywords_wk f0 config.fixes.makeKeyword [] h0
  generalize makeKeywords f0 config.fixes.makeKeyword [] = s1 at h1 ⊢
  have h2 := flattenFields_wk s1.1 config.fixes.flatten s1.2 h1
  generalize flattenFields s1.1 config.fixes.flatten s1.2 = s2 at h2 ⊢
  have h3 : WellKeyed (if config.fixes.autoFlattenOneFields then
      flattenOneFields s2.1 s2.2 else s2).1 := by
    split
    · exact flattenOneFields_wk s2.1 s2.2 h2
    · exact h2
  generalize (if config.fixes.autoFlattenOneFields then flattenOneFields s2.1 s2.2 else s2)
    = s3 at h3 ⊢
  have h4 : WellKeyed (if config.fixes.autoFlattenOneRef then
      flattenOneRefs s3.1 s3.2 else s3).1 := by
    split
    · exact flattenOneRefs_wk s3.1 s3.2 h3
    · exact h3
  generalize (if config.fixes.autoFlattenOneRef then flattenOneRefs s3.1 s3.2 else s3)
    = s4 at h4 ⊢
  have h5 := removeThings_wk s4.1 config.fixes.remove s4.2 h4
  generalize removeThings s4.1 config.fixes.remove s4.2 = s5 at h5 ⊢
  have h6 := replaceTypes_wk s5.1 config.fixes.replace s5.2 h5
  generalize replaceTypes s5.1 config.fixes.replace s5.2 = s6 at h6 ⊢
  have h7 := renameThings_wk s6.1 config.fixes.rename s6.2 h6
  generalize renameThings s6.1 config.fixes.rename s6.2 = s7 at h7 ⊢
  have h8 := tagEnums_wk s7.1 config.fixes.taggedEnums s7.2 h7
  generalize tagEnums s7.1 config.fixes.taggedEnums s7.2 = s8 at h8 ⊢
  split
  · exact removeStrayTypes_wk _ h8
  · exact h8

/-- C10: path-keying invariant. Every pass of the fix pipeline preserves the
property that every entry of `File.types` is stored under a key equal to its
`TypeDef.path`, every struct's `fields` map is keyed by each `StructField.path`,
and every enum's `variants` map is keyed by each `EnumVariant.path`
(`WellKeyed`): this holds for the strip pass, the make-keywords step, the
flatten-field step, the single-referent alias merge (which restores the alias's
original path and name when overwriting its definition), the remove step, the
replace step, the rename step, the enum-tagging step and the stray sweep, and
hence for the whole pipeline `fixRun`. -/
theorem fix_preserves_keying :
    (∀ f, WellKeyed f → WellKeyed (stripEnumVariantsPass f))
    ∧ (∀ f kv, WellKeyed f → WellKeyed (makeKeywordStepFile f kv))
    ∧ (∀ f p, WellKeyed f → WellKeyed (flattenFieldStepFile f p))
    ∧ (∀ f aliasPath, WellKeyed f → WellKeyed (aliasMergeStepFile f aliasPath))
    ∧ (∀ f p, WellKeyed f → WellKeyed (removeStepFile f p))
    ∧ (∀ f kv, WellKeyed f → WellKeyed (replaceStepFile f kv))
    ∧ (∀ f kv, WellKeyed f → WellKeyed (renameStepFile f kv))
    ∧ (∀ f kv, WellKeyed f → WellKeyed (tagEnumStepFile f kv))
    ∧ (∀ f, WellKeyed f → WellKeyed (removeStrayTypes f))
    ∧ (∀ config f, WellKeyed f → WellKeyed (fixRun config f).1) :=
  ⟨stripEnumVariantsPass_wk, makeKeywordStepFile_wk, flattenFieldStepFile_wk,
   aliasMergeStepFile_wk, removeStepFile_wk, replaceStepFile_wk, renameStepFile_wk,
   tagEnumStepFile_wk, removeStrayTypes_wk, fixRun_wk⟩

/-- Witness for C10: the concrete file `exFileC7` is well-keyed, and running the
whole default pipeline on it yields a well-keyed file. -/
theorem fix_preserves_keying_witness :
    WellKeyed exFileC7 ∧ WellKeyed (fixRun defaultConfig exFileC7).1 :=
  ⟨by decide, fix_preserves_keying.2.2.2.2.2.2.2.2.2 defaultConfig exFileC7 (by decide)⟩

end OpenRpcGen
